import Mathlib

/-!
Verification development for the exam-dump PDF question extractor.

The repository has two source files, `scripts/final_parser.py` and
`scripts/parser_working.py`.  Both share the same block segmentation
(regex `Question\s*#\d+\s*Topic\s*\d+`, case-insensitive, non-overlapping
left-to-right matching) and the same community-vote extraction; they differ
in the official/community answer capture (single letter vs. several
letters) and in multiple-choice support (only `parser_working.py` has it).

Text is modelled as `List Char`.  Python character classes are modelled on
their ASCII portion: `\s` as the six ASCII whitespace characters, `\d` as
the ten ASCII digits, case folding as ASCII case folding.  Regex matching
is embedded as deterministic scanners whose greedy behaviour coincides
with the Python backtracking behaviour on these patterns (character
classes at quantifier boundaries are disjoint except where explicitly
modelled, notably the `\s*([A-D,\s]+)` capture in the answer regexes,
whose one-step backtracking is reproduced by `capClassW`).

Suffix `W` marks definitions embedded from `parser_working.py`, suffix `F`
marks definitions embedded from `final_parser.py`.
-/

/-- ASCII portion of the Python regex class `\s` / `str.strip` whitespace. -/
def isWsC (c : Char) : Bool :=
  c = ' ' || c = '\t' || c = '\n' || c = '\r' || c = Char.ofNat 11 || c = Char.ofNat 12

/-- ASCII digit test, modelling the regex class `\d` (the ten digits,
written out so that a hypothesis pins the character to finitely many
cases). -/
def isDigitC (c : Char) : Bool :=
  c = '0' || c = '1' || c = '2' || c = '3' || c = '4' || c = '5' || c = '6'
    || c = '7' || c = '8' || c = '9'

/-- ASCII lower-casing, modelling case-insensitive (`re.I`) matching. -/
def lowerAscii (c : Char) : Char :=
  if 'A' ≤ c && c ≤ 'Z' then Char.ofNat (c.toNat + 32) else c

/-- ASCII upper-casing, modelling Python `str.upper` on the captured text. -/
def upperAscii (c : Char) : Char :=
  if 'a' ≤ c && c ≤ 'z' then Char.ofNat (c.toNat - 32) else c

/-- ASCII letter test, modelling Python `str.isalpha` on the captured text. -/
def isAlphaAscii (c : Char) : Bool :=
  ('A' ≤ c && c ≤ 'Z') || ('a' ≤ c && c ≤ 'z')

/-- The regex class `[A-D]` under `re.I` (the eight members written out). -/
def isADci (c : Char) : Bool :=
  c = 'A' || c = 'B' || c = 'C' || c = 'D' || c = 'a' || c = 'b' || c = 'c' || c = 'd'

/-- Numeric value of a digit string, modelling Python `int` on a `\d+` capture. -/
def natOfDigits (ds : List Char) : Nat :=
  ds.foldl (fun a c => 10 * a + (c.toNat - 48)) 0

/-- Python `str.split` on a newline, as used by `question_text.split('\n')`. -/
def splitNl : List Char → List (List Char)
  | [] => [[]]
  | c :: rest =>
    if c = '\n' then [] :: splitNl rest
    else
      match splitNl rest with
      | [] => [[c]]
      | l :: ls => (c :: l) :: ls

/-- Python `str.strip`: leading and trailing whitespace removed. -/
def stripChars (cs : List Char) : List Char :=
  ((cs.dropWhile isWsC).reverse.dropWhile isWsC).reverse

/-- Python `re.sub(r'\s+', ' ', s)`: every whitespace run becomes one space. -/
def collapseWs : List Char → List Char
  | [] => []
  | [c] => if isWsC c then [' '] else [c]
  | c :: d :: rest =>
    if isWsC c && isWsC d then collapseWs (d :: rest)
    else (if isWsC c then ' ' else c) :: collapseWs (d :: rest)

/-- All suffixes of a list, longest first; the positions a `re.search` tries. -/
def listSuffixes : List Char → List (List Char)
  | [] => [[]]
  | c :: rest => (c :: rest) :: listSuffixes rest

/-- Case-insensitive literal prefix test. -/
def startsWithCI : List Char → List Char → Bool
  | [], _ => true
  | _ :: _, [] => false
  | p :: ps, c :: cs => lowerAscii c = lowerAscii p && startsWithCI ps cs

/-- Case-insensitive literal matching that returns the remaining input. -/
def skipPrefixCI : List Char → List Char → Option (List Char)
  | [], cs => some cs
  | _ :: _, [] => none
  | p :: ps, c :: cs =>
    if lowerAscii c = lowerAscii p then skipPrefixCI ps cs else none

/-- First case-insensitive occurrence of `pat` reachable without crossing a
newline (a regex `.` cannot match a newline); returns the input after it. -/
def searchNoNl (pat : List Char) : List Char → Option (List Char)
  | [] => none
  | c :: rest =>
    if startsWithCI pat (c :: rest) then some ((c :: rest).drop pat.length)
    else if c = '\n' then none
    else searchNoNl pat rest

/-- Whether a closing parenthesis occurs before any newline. -/
def findCloseNoNl : List Char → Bool
  | [] => false
  | c :: rest => if c = ')' then true else if c = '\n' then false else findCloseNoNl rest

/-- The alternation `(two|three|2|3)` of the multiple-choice regex. -/
def mcKws : List (List Char) := ["two".data, "three".data, "2".data, "3".data]

/-- Tail of the multiple-choice regex after the opening parenthesis:
`.*choose.*(two|three|2|3).*\)`, all on one line. -/
def mcFrom (r : List Char) : Bool :=
  match searchNoNl "choose".data r with
  | none => false
  | some r2 =>
    mcKws.any fun kw =>
      match searchNoNl kw r2 with
      | some r3 => findCloseNoNl r3
      | none => false

/-- Boolean of `re.search(r'\(.*choose.*(two|three|2|3).*\)', s, re.I)`:
some suffix starts with the opening parenthesis and completes the rest of
the pattern on the same line. -/
def mcSearch (s : List Char) : Bool :=
  (listSuffixes s).any fun suf =>
    match suf with
    | c :: r => decide (c = '(') && mcFrom r
    | [] => false

/-- The regex piece `\d+`: requires a digit and consumes the digit run. -/
def digits1 : List Char → Option (List Char)
  | [] => none
  | c :: rest =>
    if isDigitC c then some ((c :: rest).dropWhile isDigitC) else none

/-- Anchored match of the block-marker regex `Question\s*#\d+\s*Topic\s*\d+`
under `re.I`; on success returns the input after the match.  All the
quantified classes here are disjoint from what follows them, so the greedy
scan equals the Python backtracking match. -/
def markerRest (cs : List Char) : Option (List Char) :=
  match skipPrefixCI "question".data cs with
  | none => none
  | some r1 =>
    match r1.dropWhile isWsC with
    | [] => none
    | c :: r2 =>
      if c = '#' then
        match digits1 r2 with
        | none => none
        | some r3 =>
          match skipPrefixCI "topic".data (r3.dropWhile isWsC) with
          | none => none
          | some r4 => digits1 (r4.dropWhile isWsC)
      else none

/-- The `re.finditer` scan: try each position left to right; after a match
resume after its end (after one character for a hypothetical empty match),
so matches are non-overlapping.  `fuel` only bounds the recursion and is
instantiated with more positions than the input has. -/
def scanPos {α : Type} (m : List Char → Option (α × List Char)) :
    Nat → Nat → List Char → List (Nat × α)
  | 0, _, _ => []
  | fuel + 1, i, cs =>
    match m cs with
    | some (a, rest) =>
      (i, a) ::
        scanPos m fuel (i + max (cs.length - rest.length) 1)
          (cs.drop (max (cs.length - rest.length) 1))
    | none =>
      match cs with
      | [] => []
      | _ :: rest => scanPos m fuel (i + 1) rest

/-- Marker matcher in the shape `scanPos` expects. -/
def markerM (cs : List Char) : Option (Unit × List Char) :=
  (markerRest cs).map fun r => ((), r)

/-- Start offsets of `re.finditer(question_pattern, all_text, re.I)`. -/
def findMarkers (cs : List Char) : List Nat :=
  (scanPos markerM (cs.length + 1) 0 cs).map fun p => p.1

/-- Block spans from marker starts: each block ends at the next marker
start, the last block at the end of the text. -/
def toSpans : List Nat → Nat → List (Nat × Nat)
  | [], _ => []
  | [s], n => [(s, n)]
  | s :: s2 :: r, n => (s, s2) :: toSpans (s2 :: r) n

/-- Spans of the question blocks of a document text. -/
def segmentSpans (cs : List Char) : List (Nat × Nat) :=
  toSpans (findMarkers cs) cs.length

/-- The block texts `all_text[start:end]`, shared by both parsers. -/
def questionBlocks (cs : List Char) : List (List Char) :=
  (segmentSpans cs).map fun p => (cs.drop p.1).take (p.2 - p.1)

/-- Anchored match of one community vote `([A-D])\s*\((\d+)%\)` under
`re.I`; returns the letter as matched, the percentage, and the rest. -/
def voteM (cs : List Char) : Option ((Char × Nat) × List Char) :=
  match cs with
  | [] => none
  | c :: r1 =>
    if isADci c then
      match r1.dropWhile isWsC with
      | '(' :: r3 =>
        match r3.takeWhile isDigitC with
        | [] => none
        | d :: ds =>
          match r3.drop (d :: ds).length with
          | '%' :: ')' :: r4 => some ((c, natOfDigits (d :: ds)), r4)
          | _ => none
      | _ => none
    else none

/-- `re.findall(r'([A-D])\s*\((\d+)%\)', question_text, re.I)`. -/
def voteMatches (cs : List Char) : List (Char × Nat) :=
  (scanPos voteM (cs.length + 1) 0 cs).map fun p => p.2

/-- One assignment of a Python dict comprehension: a present key is
overwritten in place, a new key is appended. -/
def dictInsert (d : List (Char × Nat)) (k : Char) (v : Nat) : List (Char × Nat) :=
  if d.any fun p => p.1 = k then d.map fun p => if p.1 = k then (k, v) else p
  else d ++ [(k, v)]

/-- The dict `{letter.upper(): int(percentage) for letter, percentage in
vote_matches}`: for a repeated key the last occurrence wins. -/
def buildVotes (ms : List (Char × Nat)) : List (Char × Nat) :=
  ms.foldl (fun d m => dictInsert d (upperAscii m.1) m.2) []

/-- Python `max(votes.values())` (the dict is non-empty where this is used). -/
def maxVals (d : List (Char × Nat)) : Nat :=
  d.foldl (fun a p => max a p.2) 0

/-- The `community_confidence` values. -/
inductive Confidence
  | none
  | low
  | medium
  | high
deriving DecidableEq, Repr

/-- The threshold ladder `>70 / >50 / else` applied to the maximum vote. -/
def confFromMax (n : Nat) : Confidence :=
  if n > 70 then .high else if n > 50 then .medium else .low

/-- Community confidence of a block: stays `none` without vote matches. -/
def voteConfidence (cs : List Char) : Confidence :=
  if voteMatches cs = [] then .none
  else confFromMax (maxVals (buildVotes (voteMatches cs)))

/-- Anchored match of `Correct\s+Answer:` under `re.I`; returns the text
after the colon. -/
def afterCorrectAnswer (cs : List Char) : Option (List Char) :=
  match skipPrefixCI "correct".data cs with
  | none => none
  | some r1 =>
    match r1 with
    | [] => none
    | c :: _ =>
      if isWsC c then skipPrefixCI "answer:".data (r1.dropWhile isWsC)
      else none

/-- Non-whitespace members of the class `[A-D,\s]` under `re.I`. -/
def isClassNWch (c : Char) : Bool := isADci c || c = ','

/-- The class `[A-D,\s]` under `re.I`. -/
def isClassWch (c : Char) : Bool := isWsC c || isClassNWch c

/-- The capture of `\s*([A-D,\s]+)`: the greedy `\s*` eats the whitespace
run; if a class character follows, the group is the class run from there;
otherwise backtracking hands the group the last whitespace character, if
any. -/
def capClassW (t : List Char) : Option (List Char) :=
  let fb : Option (List Char) :=
    match (t.takeWhile isWsC).reverse with
    | c :: _ => some [c]
    | [] => none
  match t.dropWhile isWsC with
  | c :: r => if isClassNWch c then some ((c :: r).takeWhile isClassWch) else fb
  | [] => fb

/-- Python `.upper().replace(' ', '').replace(',', '')` on a capture.  Only
the space character is removed, not other whitespace. -/
def cleanAns (g : List Char) : List Char :=
  (g.map upperAscii).filter fun c => !(c = ' ' || c = ',')

/-- The capture of `re.match(r'Correct\s+Answer:\s*([A-D,\s]+)', line, re.I)`
from `parser_working.py`. -/
def matchCorrAnsW (line : List Char) : Option (List Char) :=
  match afterCorrectAnswer line with
  | some t => capClassW t
  | none => none

/-- The capture of `\s*([A-D])`: a single class letter after the
whitespace run. -/
def capClassF (t : List Char) : Option Char :=
  match t.dropWhile isWsC with
  | c :: _ => if isADci c then some c else none
  | [] => none

/-- The capture of `re.match(r'Correct\s+Answer:\s*([A-D])', line, re.I)`
from `final_parser.py`. -/
def matchCorrAnsF (line : List Char) : Option Char :=
  match afterCorrectAnswer line with
  | some t => capClassF t
  | none => none

/-- The match `re.match(r'^([A-D])\.\s*(.*)', line)` (case-sensitive):
option letter and the option text after the dot and its whitespace. -/
def matchOptionStart (line : List Char) : Option (Char × List Char) :=
  match line with
  | c :: '.' :: rest =>
    if c = 'A' || c = 'B' || c = 'C' || c = 'D' then some (c, rest.dropWhile isWsC)
    else none
  | _ => none

/-- Anchored attempt of `Selected Answer:\s*([A-D,\s]+)` under `re.I` (the
space in the literal is a plain space). -/
def trySelW (cs : List Char) : Option (List Char) :=
  match skipPrefixCI "selected answer:".data cs with
  | some t => capClassW t
  | none => none

/-- `re.search(r'Selected Answer:\s*([A-D,\s]+)', question_text, re.I)`:
leftmost position where the whole pattern matches. -/
def searchSelW : List Char → Option (List Char)
  | [] => none
  | c :: rest =>
    match trySelW (c :: rest) with
    | some g => some g
    | none => searchSelW rest

/-- Anchored attempt of `Selected Answer:\s*([A-D])` under `re.I`. -/
def trySelF (cs : List Char) : Option Char :=
  match skipPrefixCI "selected answer:".data cs with
  | some t => capClassF t
  | none => none

/-- `re.search(r'Selected Answer:\s*([A-D])', question_text, re.I)`. -/
def searchSelF : List Char → Option Char
  | [] => none
  | c :: rest =>
    match trySelF (c :: rest) with
    | some g => some g
    | none => searchSelF rest

/-- Loop state of the per-line scan of `parse_question_from_text` in
`parser_working.py`. -/
structure ScanStateW where
  qlines : List (List Char)
  opts : List (List Char)
  corr : Option (List Char)
  curr : Option (Char × List Char)
  inOpts : Bool
  imc : Bool
deriving DecidableEq, Repr

/-- Initial loop state. -/
def initScanW : ScanStateW := ⟨[], [], none, none, false, false⟩

/-- Finalizing an open option: its text is stripped and appended. -/
def saveCurr (opts : List (List Char)) (curr : Option (Char × List Char)) :
    List (List Char) :=
  match curr with
  | some c => opts ++ [stripChars c.2]
  | none => opts

/-- The per-line loop of `parser_working.py` (lines 59-91): strip, skip
blank lines, or in the multiple-choice flag, break on a Correct-Answer
line, else classify as option start, option continuation or stem line.
`fullMC` is the loop-invariant `re.search` over the whole block text. -/
def scanW (fullMC : Bool) : List (List Char) → ScanStateW → ScanStateW
  | [], st => st
  | l :: rest, st =>
    let line := stripChars l
    if line = [] then scanW fullMC rest st
    else
      let st1 : ScanStateW := { st with imc := st.imc || mcSearch line || fullMC }
      match matchCorrAnsW line with
      | some g => { st1 with corr := some (cleanAns g) }
      | none =>
        match matchOptionStart line with
        | some lt =>
          scanW fullMC rest
            { st1 with
              opts := saveCurr st1.opts st1.curr
              curr := some lt
              inOpts := true }
        | none =>
          if st1.inOpts && st1.curr.isSome then
            scanW fullMC rest
              { st1 with curr := st1.curr.map fun c => (c.1, c.2 ++ ' ' :: line) }
          else if !st1.inOpts then
            scanW fullMC rest { st1 with qlines := st1.qlines ++ [line] }
          else scanW fullMC rest st1

/-- The `ParsedQuestion` record of `parser_working.py`. -/
structure ParsedW where
  question : List Char
  options : List (List Char)
  correct_answer : Option (List Char)
  community_answer : Option (List Char)
  community_confidence : Confidence
  is_multiple_choice : Bool
deriving DecidableEq, Repr

/-- `parse_question_from_text` of `parser_working.py`. -/
def parseQuestionW (cs : List Char) : ParsedW :=
  let st := scanW (mcSearch cs) (splitNl cs) initScanW
  let optsRaw := saveCurr st.opts st.curr
  { question := stripChars (List.intercalate [' '] st.qlines)
    options := (optsRaw.map fun o => collapseWs (stripChars o)).filter fun o => o ≠ []
    correct_answer := st.corr
    community_answer := (searchSelW cs).map cleanAns
    community_confidence := voteConfidence cs
    is_multiple_choice := st.imc }

/-- Loop state of the per-line scan of `final_parser.py` (no
multiple-choice flag). -/
structure ScanStateF where
  qlines : List (List Char)
  opts : List (List Char)
  corr : Option (List Char)
  curr : Option (Char × List Char)
  inOpts : Bool
deriving DecidableEq, Repr

/-- Initial loop state. -/
def initScanF : ScanStateF := ⟨[], [], none, none, false⟩

/-- The per-line loop of `final_parser.py` (lines 40-67): as in the working
parser but without the multiple-choice check and with a single-letter
answer capture, stored upper-cased. -/
def scanF : List (List Char) → ScanStateF → ScanStateF
  | [], st => st
  | l :: rest, st =>
    let line := stripChars l
    if line = [] then scanF rest st
    else
      match matchCorrAnsF line with
      | some c => { st with corr := some [upperAscii c] }
      | none =>
        match matchOptionStart line with
        | some lt =>
          scanF rest
            { st with
              opts := saveCurr st.opts st.curr
              curr := some lt
              inOpts := true }
        | none =>
          if st.inOpts && st.curr.isSome then
            scanF rest { st with curr := st.curr.map fun c => (c.1, c.2 ++ ' ' :: line) }
          else if !st.inOpts then
            scanF rest { st with qlines := st.qlines ++ [line] }
          else scanF rest st

/-- The `ParsedQuestion` record of `final_parser.py`. -/
structure ParsedF where
  question : List Char
  options : List (List Char)
  correct_answer : Option (List Char)
  community_answer : Option (List Char)
  community_confidence : Confidence
deriving DecidableEq, Repr

/-- `parse_question_from_text` of `final_parser.py`. -/
def parseQuestionF (cs : List Char) : ParsedF :=
  let st := scanF (splitNl cs) initScanF
  let optsRaw := saveCurr st.opts st.curr
  { question := stripChars (List.intercalate [' '] st.qlines)
    options := (optsRaw.map fun o => collapseWs (stripChars o)).filter fun o => o ≠ []
    correct_answer := st.corr
    community_answer := (searchSelF cs).map fun c => [upperAscii c]
    community_confidence := voteConfidence cs }

/-- Python truthiness of an optional string: `None` and the empty string
are falsy. -/
def truthyOpt : Option (List Char) → Bool
  | Option.none => false
  | some s => !(s = [])

/-- The answer value of an accepted question: a single index or an index
list for multiple choice. -/
inductive AnsVal
  | single (i : Int)
  | multi (l : List Int)
deriving DecidableEq, Repr

/-- An accepted question of `parser_working.py`, `source` dict inlined. -/
structure AcceptedW where
  question : List Char
  options : List (List Char)
  answer : AnsVal
  is_multiple_choice : Bool
  src_correct : Option (List Char)
  src_community : Option (List Char)
  src_confidence : Confidence
deriving DecidableEq, Repr

/-- `final_answer = parsed['community_answer'] if parsed['community_answer']
else parsed['correct_answer']` (Python truthiness). -/
def finalAnswerW (p : ParsedW) : List Char :=
  match p.community_answer with
  | some ca => if ca = [] then p.correct_answer.getD [] else ca
  | Option.none => p.correct_answer.getD []

/-- The minimum-field validation of `parser_working.py` lines 179-181. -/
def validW (p : ParsedW) : Bool :=
  !(decide (p.question.length < 30) || decide (p.options.length < 2)
    || !truthyOpt p.correct_answer)

/-- The index `ord(letter) - ord('A')`. -/
def letterIdx (c : Char) : Int := (c.toNat : Int) - 65

/-- The indices of the alphabetic characters of the final answer, the
multi-choice candidate answer list of `parser_working.py` line 191. -/
def letterIdxs (p : ParsedW) : List Int :=
  ((finalAnswerW p).filter isAlphaAscii).map letterIdx

/-- Validation and answer resolution of `parser_working.py` lines 178-233:
returns `none` for a skipped block, the accepted record otherwise. -/
def acceptW (p : ParsedW) : Option AcceptedW :=
  if p.question.length < 30 ∨ p.options.length < 2 ∨ truthyOpt p.correct_answer = false
  then none
  else
    let fa := finalAnswerW p
    if p.is_multiple_choice = true ∧ 1 < fa.length then
      let answerIndices := letterIdxs p
      let validIndices :=
        answerIndices.filter fun i => decide (0 ≤ i ∧ i < (p.options.length : Int))
      if validIndices.length ≠ answerIndices.length ∨ validIndices.length = 0 then none
      else
        some
          { question := p.question
            options := p.options
            answer := .multi validIndices
            is_multiple_choice := p.is_multiple_choice
            src_correct := p.correct_answer
            src_community := p.community_answer
            src_confidence := p.community_confidence }
    else
      match fa with
      | [] => none
      | c :: _ =>
        if isAlphaAscii c = false then none
        else
          if 0 ≤ letterIdx c ∧ letterIdx c < (p.options.length : Int) then
            some
              { question := p.question
                options := p.options
                answer := .single (letterIdx c)
                is_multiple_choice := p.is_multiple_choice
                src_correct := p.correct_answer
                src_community := p.community_answer
                src_confidence := p.community_confidence }
          else none

/-- An accepted question of `final_parser.py`. -/
structure AcceptedF where
  question : List Char
  options : List (List Char)
  answer : Int
  src_correct : Option (List Char)
  src_community : Option (List Char)
  src_confidence : Confidence
deriving DecidableEq, Repr

/-- Final-answer preference of `final_parser.py` line 161, same policy. -/
def finalAnswerF (p : ParsedF) : List Char :=
  match p.community_answer with
  | some ca => if ca = [] then p.correct_answer.getD [] else ca
  | Option.none => p.correct_answer.getD []

/-- Validation and answer resolution of `final_parser.py` lines 153-180.
Python computes `ord(final_answer)`, which raises unless the string has
exactly one character; the surrounding `try` turns that into a skip, hence
the catch-all `none`. -/
def acceptF (p : ParsedF) : Option AcceptedF :=
  if p.question.length < 30 ∨ p.options.length < 2 ∨ truthyOpt p.correct_answer = false
  then none
  else
    match finalAnswerF p with
    | [c] =>
      if 0 ≤ letterIdx c ∧ letterIdx c < (p.options.length : Int) then
        some
          { question := p.question
            options := p.options
            answer := letterIdx c
            src_correct := p.correct_answer
            src_community := p.community_answer
            src_confidence := p.community_confidence }
      else none
    | _ => none

/-- The accepted-question accumulation loop over blocks (working parser):
a skipped block leaves the output unchanged. -/
def processBlocksW (bs : List (List Char)) : List AcceptedW :=
  bs.filterMap fun b => acceptW (parseQuestionW b)

/-- The accepted-question accumulation loop over blocks (final parser). -/
def processBlocksF (bs : List (List Char)) : List AcceptedF :=
  bs.filterMap fun b => acceptF (parseQuestionF b)

/-- `parse_pdf` of `parser_working.py` from the concatenated page text on. -/
def extractW (cs : List Char) : List AcceptedW :=
  processBlocksW (questionBlocks cs)

/-- `parse_pdf_final` of `final_parser.py` from the concatenated page text on. -/
def extractF (cs : List Char) : List AcceptedF :=
  processBlocksF (questionBlocks cs)

set_option maxRecDepth 100000

/-! ## Observer definitions used by the theorems -/

/-- Dict lookup on the association-list model of the vote dict. -/
def lookupVal (d : List (Char × Nat)) (k : Char) : Option Nat :=
  (d.find? fun p => p.1 = k).map fun p => p.2

/-- The percentage of the last vote match whose upper-cased letter is `k`. -/
def lastVal (ms : List (Char × Nat)) (k : Char) : Option Nat :=
  (ms.reverse.find? fun p => upperAscii p.1 = k).map fun p => p.2

/-- Maximum over all matched percentages, ignoring the per-letter
overwriting of the dict; an observer used to contrast with `maxVals`. -/
def maxRawVotes (cs : List Char) : Nat :=
  (voteMatches cs).foldl (fun a p => max a p.2) 0

/-- The validation gate of both parsers, as a Boolean observer. -/
def validGateW (p : ParsedW) : Bool :=
  decide (¬(p.question.length < 30 ∨ p.options.length < 2
    ∨ truthyOpt p.correct_answer = false))

/-! ## Helper lemmas -/

theorem find_some_append {α : Type} {l1 l2 : List α} {p : α → Bool} {x : α}
    (h : l1.find? p = some x) : (l1 ++ l2).find? p = some x := by
  induction l1 with
  | nil => simp [List.find?] at h
  | cons a l ih =>
    rw [List.cons_append]
    cases hp : p a with
    | true => rw [List.find?_cons_of_pos _ hp] at h ⊢; exact h
    | false =>
      rw [List.find?_cons_of_neg _ (by simp [hp])] at h ⊢
      exact ih h

theorem find_none_append {α : Type} {l1 l2 : List α} {p : α → Bool}
    (h : l1.find? p = none) : (l1 ++ l2).find? p = l2.find? p := by
  induction l1 with
  | nil => simp
  | cons a l ih =>
    rw [List.cons_append]
    cases hp : p a with
    | true => rw [List.find?_cons_of_pos _ hp] at h; exact absurd h (by simp)
    | false =>
      rw [List.find?_cons_of_neg _ (by simp [hp])] at h ⊢
      exact ih h

theorem find_overwrite (d : List (Char × Nat)) (k : Char) (v : Nat)
    (h : (d.any fun p => p.1 = k) = true) :
    ((d.map fun p => if p.1 = k then (k, v) else p).find? fun p => p.1 = k)
      = some (k, v) := by
  induction d with
  | nil => simp at h
  | cons a d ih =>
    by_cases ha : a.1 = k
    · simp only [List.map_cons, if_pos ha]
      rw [List.find?_cons_of_pos _ (by simp)]
    · simp only [List.any_cons] at h
      have h2 : (d.any fun p => p.1 = k) = true := by
        rcases Bool.or_eq_true_iff.mp h with h1 | h1
        · exact absurd (by simpa using h1) ha
        · exact h1
      simp only [List.map_cons, if_neg ha]
      rw [List.find?_cons_of_neg _ (by simp [ha])]
      exact ih h2

theorem find_overwrite_other (d : List (Char × Nat)) (k : Char) (v : Nat)
    (k2 : Char) (hk : k2 ≠ k) :
    ((d.map fun p => if p.1 = k then (k, v) else p).find? fun p => p.1 = k2)
      = d.find? fun p => p.1 = k2 := by
  induction d with
  | nil => simp
  | cons a d ih =>
    by_cases ha : a.1 = k
    · simp only [List.map_cons, if_pos ha]
      rw [List.find?_cons_of_neg _ (by simp; exact Ne.symm hk),
        List.find?_cons_of_neg _ (by simp [ha]; exact Ne.symm hk)]
      exact ih
    · simp only [List.map_cons, if_neg ha]
      by_cases hb : a.1 = k2
      · rw [List.find?_cons_of_pos _ (by simp [hb]),
          List.find?_cons_of_pos _ (by simp [hb])]
      · rw [List.find?_cons_of_neg _ (by simp [hb]),
          List.find?_cons_of_neg _ (by simp [hb])]
        exact ih

theorem lookupVal_dictInsert (d : List (Char × Nat)) (k : Char) (v : Nat)
    (k2 : Char) :
    lookupVal (dictInsert d k v) k2 = if k2 = k then some v else lookupVal d k2 := by
  unfold dictInsert lookupVal
  by_cases hany : (d.any fun p => p.1 = k) = true
  · rw [if_pos hany]
    by_cases hk : k2 = k
    · subst hk
      rw [find_overwrite d k2 v hany]
      simp
    · rw [find_overwrite_other d k v k2 hk, if_neg hk]
  · rw [if_neg hany]
    have hnone : (d.find? fun p => p.1 = k) = none := by
      rw [List.find?_eq_none]
      intro x hx hpx
      exact hany (List.any_eq_true.mpr ⟨x, hx, hpx⟩)
    by_cases hk : k2 = k
    · subst hk
      rw [find_none_append hnone]
      simp [List.find?]
    · rw [if_neg hk]
      cases hd : d.find? fun p => p.1 = k2 with
      | some x => simp [find_some_append hd, hd]
      | none =>
        have h1 : ((d ++ [(k, v)]).find? fun p => p.1 = k2) = none := by
          rw [find_none_append hd]
          rw [List.find?_cons_of_neg _ (by simp; exact Ne.symm hk)]
          rfl
        simp [h1, hd]

theorem lookup_buildVotes (ms : List (Char × Nat)) (k : Char) :
    lookupVal (buildVotes ms) k = lastVal ms k := by
  induction ms using List.reverseRecOn with
  | nil => rfl
  | append_singleton ms m ih =>
    have hb : buildVotes (ms ++ [m]) = dictInsert (buildVotes ms) (upperAscii m.1) m.2 := by
      simp [buildVotes, List.foldl_append]
    rw [hb, lookupVal_dictInsert, lastVal, List.reverse_append]
    simp only [List.reverse_singleton, List.singleton_append]
    by_cases hk : k = upperAscii m.1
    · rw [if_pos hk, List.find?_cons_of_pos _ (by simp [hk.symm])]
      simp
    · rw [if_neg hk, List.find?_cons_of_neg _ (by simp; exact Ne.symm hk), ih, lastVal]

/-! ## C9: determinism of the extraction pipeline -/

/-- C9.  Extraction is deterministic: the embedded pipeline is a pure
function of the document text, so running it twice on the identical
input yields identical output sequences. -/
theorem extraction_deterministic (cs : List Char) :
    extractW cs = extractW cs ∧ extractF cs = extractF cs :=
  ⟨rfl, rfl⟩

/-! ## C6: confidence thresholds -/

/-- C6.  With at least one vote match, confidence is `high` exactly when the
maximum mapped percentage exceeds 70, `medium` exactly when it exceeds 50
but not 70, and `low` otherwise; with no vote match it is `none`.  Both
parsers share this computation. -/
theorem confidence_thresholds (cs : List Char) :
    (voteMatches cs ≠ [] →
      ((parseQuestionW cs).community_confidence = Confidence.high
          ↔ 70 < maxVals (buildVotes (voteMatches cs))) ∧
      ((parseQuestionW cs).community_confidence = Confidence.medium
          ↔ 50 < maxVals (buildVotes (voteMatches cs))
              ∧ maxVals (buildVotes (voteMatches cs)) ≤ 70) ∧
      ((parseQuestionW cs).community_confidence = Confidence.low
          ↔ maxVals (buildVotes (voteMatches cs)) ≤ 50) ∧
      (parseQuestionF cs).community_confidence = (parseQuestionW cs).community_confidence) ∧
    (voteMatches cs = [] →
      (parseQuestionW cs).community_confidence = Confidence.none ∧
      (parseQuestionF cs).community_confidence = Confidence.none) := by
  have hW : (parseQuestionW cs).community_confidence = voteConfidence cs := rfl
  have hF : (parseQuestionF cs).community_confidence = voteConfidence cs := rfl
  constructor
  · intro hne
    rw [hW, hF]
    unfold voteConfidence confFromMax
    rw [if_neg hne]
    refine ⟨?_, ?_, ?_, rfl⟩
    all_goals split_ifs
    all_goals simp_all
    all_goals omega
  · intro he
    rw [hW, hF]
    unfold voteConfidence
    rw [if_pos he]
    exact ⟨rfl, rfl⟩

/-- Witness for C6 at the four threshold examples of the specification. -/
theorem confidence_thresholds_witness :
    (parseQuestionW "A (72%)".data).community_confidence = Confidence.high ∧
    (parseQuestionW "A (55%)".data).community_confidence = Confidence.medium ∧
    (parseQuestionW "A (40%)".data).community_confidence = Confidence.low ∧
    (parseQuestionW "no votes here".data).community_confidence = Confidence.none :=
  ⟨((confidence_thresholds "A (72%)".data).1 (by decide)).1.mpr (by decide),
   ((confidence_thresholds "A (55%)".data).1 (by decide)).2.1.mpr (by decide),
   ((confidence_thresholds "A (40%)".data).1 (by decide)).2.2.1.mpr (by decide),
   ((confidence_thresholds "no votes here".data).2 (by decide)).1⟩

/-! ## C10: the vote dict keeps the last occurrence per letter -/

/-- A block whose two vote matches carry the same upper-cased letter. -/
def exVotes : List Char := "A (80%) a (40%)".data

/-- C10.  The letter-to-percentage dict keeps only the last occurrence per
upper-cased letter, so confidence derives from the maximum over
last-per-letter percentages; on `exVotes` that maximum (40) differs from
the maximum over all matches (80) and so does the confidence. -/
theorem votes_last_occurrence_wins :
    (∀ (ms : List (Char × Nat)) (k : Char), lookupVal (buildVotes ms) k = lastVal ms k) ∧
    voteMatches exVotes = [('A', 80), ('a', 40)] ∧
    buildVotes (voteMatches exVotes) = [('A', 40)] ∧
    maxVals (buildVotes (voteMatches exVotes)) = 40 ∧
    maxRawVotes exVotes = 80 ∧
    (parseQuestionW exVotes).community_confidence = Confidence.low ∧
    (parseQuestionF exVotes).community_confidence = Confidence.low ∧
    confFromMax (maxRawVotes exVotes) = Confidence.high :=
  ⟨lookup_buildVotes, by decide, by decide, by decide, by decide, by decide, by decide, by decide⟩

/-! ## C4: rejection is a skip -/

/-- C4.  No accepted question is created from a parse with a stem shorter
than 30 characters, fewer than 2 cleaned options, or no truthy official
answer; and a block whose parse is rejected leaves the accumulated output
unchanged while processing continues with the remaining blocks. -/
theorem rejection_skips_block :
    (∀ p : ParsedW,
      p.question.length < 30 ∨ p.options.length < 2 ∨ truthyOpt p.correct_answer = false →
      acceptW p = none) ∧
    (∀ p : ParsedF,
      p.question.length < 30 ∨ p.options.length < 2 ∨ truthyOpt p.correct_answer = false →
      acceptF p = none) ∧
    (∀ (bs1 bs2 : List (List Char)) (b : List Char),
      acceptW (parseQuestionW b) = none →
      processBlocksW (bs1 ++ b :: bs2) = processBlocksW (bs1 ++ bs2)) ∧
    (∀ (bs1 bs2 : List (List Char)) (b : List Char),
      acceptF (parseQuestionF b) = none →
      processBlocksF (bs1 ++ b :: bs2) = processBlocksF (bs1 ++ bs2)) := by
  refine ⟨?_, ?_, ?_, ?_⟩
  · intro p h
    unfold acceptW
    rw [if_pos h]
  · intro p h
    unfold acceptF
    rw [if_pos h]
  · intro bs1 bs2 b h
    simp [processBlocksW, List.filterMap_append, List.filterMap_cons, h]
  · intro bs1 bs2 b h
    simp [processBlocksF, List.filterMap_append, List.filterMap_cons, h]

/-- A parse whose stem has length 10 but whose options and answer are valid. -/
def pShortStem : ParsedW :=
  ⟨"ten chars!".data, ["one".data, "two".data, "three".data],
    some "B".data, none, Confidence.none, false⟩

/-- A block that parses to a short stem. -/
def blkShort : List Char :=
  ("Question #9 Topic 9\nA. one\nB. two\nCorrect Answer: A\n").data

/-- A block that is accepted. -/
def blkGood : List Char :=
  ("Question #1 Topic 1\nA company needs a solution that works well today\n"
    ++ "A. first option\nB. second option\nCorrect Answer: B\n").data

/-- Witness for C4: the short-stem parse is rejected, and a rejected block
leaves the output of the surrounding run unchanged. -/
theorem rejection_skips_block_witness :
    acceptW pShortStem = none ∧
    processBlocksW [blkGood, blkShort] = processBlocksW [blkGood] ∧
    processBlocksF [blkGood, blkShort] = processBlocksF [blkGood] :=
  ⟨rejection_skips_block.1 pShortStem (Or.inl (by decide)),
   rejection_skips_block.2.2.1 [blkGood] [] blkShort (by decide),
   rejection_skips_block.2.2.2 [blkGood] [] blkShort (by decide)⟩

/-! ## C3: answer preference and provenance -/

theorem acceptW_fields (p : ParsedW) (r : AcceptedW) (h : acceptW p = some r) :
    r.src_correct = p.correct_answer ∧ r.src_community = p.community_answer ∧
    r.src_confidence = p.community_confidence := by
  simp only [acceptW] at h
  split at h
  · exact absurd h (by simp)
  · split at h
    · split at h
      · exact absurd h (by simp)
      · cases h
        exact ⟨rfl, rfl, rfl⟩
    · split at h
      · exact absurd h (by simp)
      · split at h
        · exact absurd h (by simp)
        · split at h
          · cases h
            exact ⟨rfl, rfl, rfl⟩
          · exact absurd h (by simp)

theorem acceptF_fields (p : ParsedF) (r : AcceptedF) (h : acceptF p = some r) :
    r.src_correct = p.correct_answer ∧ r.src_community = p.community_answer ∧
    r.src_confidence = p.community_confidence := by
  simp only [acceptF] at h
  split at h
  · exact absurd h (by simp)
  · split at h
    · split at h
      · cases h
        exact ⟨rfl, rfl, rfl⟩
      · exact absurd h (by simp)
    · exact absurd h (by simp)

/-- C3.  The final answer letters are the community answer when it is
present and non-empty, else the official answer; an accepted record keeps
both original letter strings and the confidence verbatim, independent of
which resolved the index. -/
theorem answer_preference_provenance :
    (∀ (p : ParsedW) (ca : List Char),
      p.community_answer = some ca → ca ≠ [] → finalAnswerW p = ca) ∧
    (∀ p : ParsedW, p.community_answer = none ∨ p.community_answer = some [] →
      finalAnswerW p = p.correct_answer.getD []) ∧
    (∀ (p : ParsedW) (r : AcceptedW), acceptW p = some r →
      r.src_correct = p.correct_answer ∧ r.src_community = p.community_answer ∧
      r.src_confidence = p.community_confidence) ∧
    (∀ (p : ParsedF) (ca : List Char),
      p.community_answer = some ca → ca ≠ [] → finalAnswerF p = ca) ∧
    (∀ p : ParsedF, p.community_answer = none ∨ p.community_answer = some [] →
      finalAnswerF p = p.correct_answer.getD []) ∧
    (∀ (p : ParsedF) (r : AcceptedF), acceptF p = some r →
      r.src_correct = p.correct_answer ∧ r.src_community = p.community_answer ∧
      r.src_confidence = p.community_confidence) := by
  refine ⟨?_, ?_, acceptW_fields, ?_, ?_, acceptF_fields⟩
  · intro p ca hca hne
    simp [finalAnswerW, hca, hne]
  · intro p h
    rcases h with h | h <;> simp [finalAnswerW, h]
  · intro p ca hca hne
    simp [finalAnswerF, hca, hne]
  · intro p h
    rcases h with h | h <;> simp [finalAnswerF, h]

/-- A parse whose community answer differs from its official answer. -/
def pPref : ParsedW :=
  ⟨"this stem is long enough for the validation".data,
    ["one".data, "two".data, "three".data, "four".data],
    some "A".data, some "B".data, Confidence.medium, false⟩

/-- Witness for C3: the community answer resolves the index while the
source keeps both letter strings and the confidence. -/
theorem answer_preference_provenance_witness :
    finalAnswerW pPref = "B".data ∧
    (acceptW pPref).map AcceptedW.answer = some (AnsVal.single 1) ∧
    (acceptW pPref).map (fun r => (r.src_correct, r.src_community, r.src_confidence))
      = some (some "A".data, some "B".data, Confidence.medium) := by
  refine ⟨answer_preference_provenance.1 pPref "B".data rfl (by decide), by decide, ?_⟩
  cases hacc : acceptW pPref with
  | none => exact absurd hacc (by decide)
  | some r =>
    obtain ⟨h1, h2, h3⟩ := answer_preference_provenance.2.2.1 pPref r hacc
    simp [h1, h2, h3, pPref]

/-! ## C2: answer resolution (multi-choice guard counts characters) -/

/-- A block whose official answer capture is the two-character string with
one letter and one tab: the line `Correct Answer: A<tab>x` captures
`A<tab>` under `Correct\s+Answer:\s*([A-D,\s]+)` and the cleaning removes
only spaces and commas. -/
def blkTab : List Char :=
  ("Question #5 Topic 1\n"
    ++ "A long enough stem sentence for validation here (Choose two.)\n"
    ++ "A. alpha\nB. beta\nCorrect Answer: A\tx\n").data

/-- Counterexample to C2 as stated: this block is multiple-choice and its
final-answer string has exactly one letter, so the claim requires the
single-choice path (stored answer the single integer 0); the code compares
the string length (2) instead and stores the list `[0]`. -/
theorem multi_guard_counterexample :
    (parseQuestionW blkTab).is_multiple_choice = true ∧
    finalAnswerW (parseQuestionW blkTab) = ['A', '\t'] ∧
    ((finalAnswerW (parseQuestionW blkTab)).filter isAlphaAscii).length = 1 ∧
    (acceptW (parseQuestionW blkTab)).map AcceptedW.answer = some (AnsVal.multi [0]) ∧
    (acceptW (parseQuestionW blkTab)).map AcceptedW.answer ≠ some (AnsVal.single 0) := by
  refine ⟨by decide, by decide, by decide, by decide, by decide⟩

theorem filter_length_criterion (l : List Int) (n : Int) :
    ((l.filter fun i => decide (0 ≤ i ∧ i < n)).length ≠ l.length
        ∨ (l.filter fun i => decide (0 ≤ i ∧ i < n)).length = 0)
      ↔ (l = [] ∨ ∃ i ∈ l, ¬(0 ≤ i ∧ i < n)) := by
  have hiff : (l.filter fun i => decide (0 ≤ i ∧ i < n)).length = l.length
      ↔ ∀ i ∈ l, (0 ≤ i ∧ i < n) := by
    constructor
    · intro h i hi
      have := List.filter_eq_self.mp ((List.filter_sublist l).eq_of_length h)
      simpa using this i hi
    · intro h
      rw [List.filter_eq_self.mpr (by simpa using h)]
  constructor
  · intro h
    rcases h with h | h
    · right
      by_contra hc
      push_neg at hc
      exact h (hiff.mpr hc)
    · rcases List.eq_nil_or_concat l with rfl | ⟨l2, a, rfl⟩
      · exact Or.inl rfl
      · right
        by_contra hc
        push_neg at hc
        have hall := hiff.mpr hc
        rw [hall] at h
        simp at h
  · intro h
    rcases h with rfl | ⟨i, hi, hni⟩
    · exact Or.inr (by simp)
    · left
      intro hlen
      exact hni (hiff.mp hlen i hi)

theorem finalAnswerW_ne_nil (p : ParsedW) (hv : truthyOpt p.correct_answer = true) :
    finalAnswerW p ≠ [] := by
  unfold truthyOpt at hv
  cases hco : p.correct_answer with
  | none => rw [hco] at hv; exact absurd hv (by simp)
  | some s =>
    rw [hco] at hv
    have hs : s ≠ [] := by simpa using hv
    cases hca : p.community_answer with
    | none => simp [finalAnswerW, hca, hco, hs]
    | some ca =>
      by_cases hcae : ca = []
      · simp [finalAnswerW, hca, hco, hcae, hs]
      · simp [finalAnswerW, hca, hco, hcae]

/-- C2 as amended.  For a parse that passes minimum-field validation: when
`is_multiple_choice` is true and the final-answer string has length
greater than one (the code counts characters, not letters), the stored
answer is the list of indices of every alphabetic character, and the
block is rejected exactly when no such index exists or one lies outside
`[0, len(options))`; otherwise only the first character is used, the
block is rejected exactly when it is not alphabetic or out of range, and
the stored answer is that single integer. -/
theorem answer_resolution_amended (p : ParsedW) (hv : validGateW p = true) :
    (p.is_multiple_choice = true ∧ 1 < (finalAnswerW p).length →
      (acceptW p = none ↔ letterIdxs p = []
          ∨ ∃ i ∈ letterIdxs p, ¬(0 ≤ i ∧ i < (p.options.length : Int))) ∧
      ∀ r, acceptW p = some r → r.answer = AnsVal.multi (letterIdxs p)) ∧
    (¬(p.is_multiple_choice = true ∧ 1 < (finalAnswerW p).length) →
      finalAnswerW p ≠ [] ∧
      ∀ c rest, finalAnswerW p = c :: rest →
        (acceptW p = none ↔ (isAlphaAscii c = false
            ∨ ¬(0 ≤ letterIdx c ∧ letterIdx c < (p.options.length : Int)))) ∧
        ∀ r, acceptW p = some r → r.answer = AnsVal.single (letterIdx c)) := by
  have hcond : ¬(p.question.length < 30 ∨ p.options.length < 2
      ∨ truthyOpt p.correct_answer = false) := by
    simpa [validGateW] using hv
  have htr : truthyOpt p.correct_answer = true := by
    rcases Bool.eq_false_or_eq_true (truthyOpt p.correct_answer) with h | h
    · exact h
    · exact absurd (Or.inr (Or.inr h)) hcond
  constructor
  · intro hmc
    by_cases hcrit : ((letterIdxs p).filter fun i =>
        decide (0 ≤ i ∧ i < (p.options.length : Int))).length ≠ (letterIdxs p).length
        ∨ ((letterIdxs p).filter fun i =>
            decide (0 ≤ i ∧ i < (p.options.length : Int))).length = 0
    · have hnone : acceptW p = none := by
        simp only [acceptW]
        rw [if_neg hcond, if_pos hmc, if_pos hcrit]
      refine ⟨iff_of_true hnone ((filter_length_criterion _ _).mp hcrit), ?_⟩
      intro r hr
      rw [hnone] at hr
      exact absurd hr (by simp)
    · have hans : ∀ r, acceptW p = some r →
          r.answer = .multi ((letterIdxs p).filter fun i =>
            decide (0 ≤ i ∧ i < (p.options.length : Int))) := by
        intro r hr
        simp only [acceptW] at hr
        rw [if_neg hcond, if_pos hmc, if_neg hcrit] at hr
        cases hr
        rfl
      have hne : acceptW p ≠ none := by
        simp only [acceptW]
        rw [if_neg hcond, if_pos hmc, if_neg hcrit]
        simp
      push_neg at hcrit
      have heq := (List.filter_sublist (letterIdxs p)).eq_of_length hcrit.1
      refine ⟨?_, ?_⟩
      · rw [iff_false_intro hne]
        simp only [false_iff]
        intro hc
        have h2 := (filter_length_criterion (letterIdxs p) (p.options.length : Int)).mpr hc
        rcases h2 with h2 | h2
        · exact h2 hcrit.1
        · exact hcrit.2 h2
      · intro r hr
        rw [hans r hr, heq]
  · intro hnmc
    refine ⟨finalAnswerW_ne_nil p htr, ?_⟩
    intro c rest hfa
    by_cases ha : isAlphaAscii c = false
    · have hnone : acceptW p = none := by
        simp only [acceptW]
        rw [if_neg hcond, if_neg hnmc, hfa]
        simp [ha]
      refine ⟨by simp [hnone, ha], ?_⟩
      intro r hr
      rw [hnone] at hr
      exact absurd hr (by simp)
    · have ha2 : isAlphaAscii c = true := by
        rcases Bool.eq_false_or_eq_true (isAlphaAscii c) with h | h
        · exact h
        · exact absurd h ha
      by_cases hrange : 0 ≤ letterIdx c ∧ letterIdx c < (p.options.length : Int)
      · have hans : ∀ r, acceptW p = some r → r.answer = AnsVal.single (letterIdx c) := by
          intro r hr
          simp only [acceptW] at hr
          rw [if_neg hcond, if_neg hnmc, hfa] at hr
          simp only [ha2, Bool.true_eq_false, if_false, if_pos hrange] at hr
          cases hr
          rfl
        have hne : acceptW p ≠ none := by
          simp only [acceptW]
          rw [if_neg hcond, if_neg hnmc, hfa]
          simp [ha2, hrange]
        refine ⟨?_, hans⟩
        rw [iff_false_intro hne]
        simp [ha2, hrange]
      · have hnone : acceptW p = none := by
          simp only [acceptW]
          rw [if_neg hcond, if_neg hnmc, hfa]
          simp [ha2, hrange]
        refine ⟨by simp [hnone, hrange], ?_⟩
        intro r hr
        rw [hnone] at hr
        exact absurd hr (by simp)

/-- A parse matching the multi-choice resolution example of the
specification: community answer `BD`, four options. -/
def pMulti : ParsedW :=
  ⟨"this stem is long enough for the validation".data,
    ["one".data, "two".data, "three".data, "four".data],
    some "A".data, some "BD".data, Confidence.high, true⟩

/-- Witness for the amended C2: the multi-choice parse resolves to the
index list `[1, 3]`. -/
theorem answer_resolution_amended_witness :
    validGateW pMulti = true ∧
    (acceptW pMulti).map AcceptedW.answer = some (AnsVal.multi [1, 3]) := by
  refine ⟨by decide, ?_⟩
  have h := ((answer_resolution_amended pMulti (by decide)).1 (by decide)).2
  cases hacc : acceptW pMulti with
  | none => exact absurd hacc (by decide)
  | some r =>
    simp only [Option.map_some']
    rw [h r hacc]
    decide

/-! ## C5: the official-answer line halts the scan; capture differs
between the two parsers -/

/-- A block whose Correct-Answer line carries the two letters `A, B`. -/
def blkTwoLetters : List Char :=
  ("Question #2 Topic 1\n"
    ++ "Which two actions satisfy the compliance requirement set?\n"
    ++ "A. alpha\nB. beta\nCorrect Answer: A, B\n").data

/-- Counterexample to C5 as stated: on a line with the letters `A` and `B`,
the extractor of `final_parser.py` captures only the first letter, not all
of them. -/
theorem official_capture_counterexample :
    (parseQuestionF blkTwoLetters).correct_answer = some ['A'] ∧
    (parseQuestionW blkTwoLetters).correct_answer = some ['A', 'B'] ∧
    some ['A'] ≠ some ['A', 'B'] :=
  ⟨by decide, by decide, by decide⟩

theorem skipPrefixCI_ci_append (ps qs rest : List Char)
    (h : qs.map lowerAscii = ps.map lowerAscii) :
    skipPrefixCI ps (qs ++ rest) = some rest := by
  induction ps generalizing qs with
  | nil =>
    have : qs = [] := by simpa using h
    subst this
    rfl
  | cons p ps2 ih =>
    cases qs with
    | nil => simp at h
    | cons q qs2 =>
      simp only [List.map_cons, List.cons.injEq] at h
      simp only [List.cons_append, skipPrefixCI, if_pos h.1]
      exact ih qs2 h.2

theorem dropWhile_all_append (p : Char → Bool) (w l : List Char)
    (hw : ∀ c ∈ w, p c = true) (hl : ∀ c, l.head? = some c → p c = false) :
    (w ++ l).dropWhile p = l := by
  induction w with
  | nil =>
    cases l with
    | nil => rfl
    | cons c l2 =>
      simp only [List.nil_append, List.dropWhile_cons, hl c rfl]
      simp
  | cons c w2 ih =>
    simp only [List.cons_append, List.dropWhile_cons, hw c (by simp)]
    simp only [if_true]
    exact ih fun d hd => hw d (by simp [hd])

theorem takeWhile_all_append (p : Char → Bool) (w l : List Char)
    (hw : ∀ c ∈ w, p c = true) (hl : ∀ c, l.head? = some c → p c = false) :
    (w ++ l).takeWhile p = w := by
  induction w with
  | nil =>
    cases l with
    | nil => rfl
    | cons c l2 =>
      simp only [List.nil_append, List.takeWhile_cons, hl c rfl]
      simp
  | cons c w2 ih =>
    simp only [List.cons_append, List.takeWhile_cons, hw c (by simp)]
    simp only [if_true, List.cons.injEq, true_and]
    exact ih fun d hd => hw d (by simp [hd])

theorem lower_fix_of_ws (c : Char) (h : isWsC c = true) : lowerAscii c = c := by
  simp only [isWsC, Bool.or_eq_true, decide_eq_true_eq] at h
  rcases h with ((((rfl | rfl) | rfl) | rfl) | rfl) | rfl <;> decide

theorem not_ws_of_lower (c d : Char) (h : lowerAscii c = d) (hd : isWsC d = false) :
    isWsC c = false := by
  cases h2 : isWsC c with
  | false => rfl
  | true =>
    rw [lower_fix_of_ws c h2] at h
    subst h
    simp [h2] at hd

theorem ws_false_of_ADci (c : Char) (h : isADci c = true) : isWsC c = false := by
  simp only [isADci, Bool.or_eq_true, decide_eq_true_eq] at h
  rcases h with ((((((rfl | rfl) | rfl) | rfl) | rfl) | rfl) | rfl) | rfl <;> decide

theorem cleanAns_class (t : List Char)
    (h : ∀ c ∈ t, isADci c = true ∨ c = ',' ∨ c = ' ') :
    cleanAns t = (t.filter isADci).map upperAscii := by
  induction t with
  | nil => rfl
  | cons c t2 ih =>
    have hc := h c (by simp)
    have ht2 : ∀ d ∈ t2, isADci d = true ∨ d = ',' ∨ d = ' ' :=
      fun d hd => h d (List.mem_cons_of_mem c hd)
    rcases hc with hc | hc | hc
    · have h1 : (!(upperAscii c = ' ' || upperAscii c = ',')) = true := by
        simp only [isADci, Bool.or_eq_true, decide_eq_true_eq] at hc
        rcases hc with ((((((rfl | rfl) | rfl) | rfl) | rfl) | rfl) | rfl) | rfl <;> decide
      simp only [cleanAns, List.map_cons, List.filter_cons, h1, hc]
      simp only [if_true, cond_true]
      exact congrArg _ (ih ht2)
    · subst hc
      simp only [cleanAns, List.map_cons, List.filter_cons]
      have h1 : upperAscii ',' = ',' := by decide
      rw [h1]
      simp only [show (!(',' = ' ' || (',' : Char) = ',')) = false by decide,
        show isADci ',' = false by decide]
      simpa [cleanAns] using ih ht2
    · subst hc
      simp only [cleanAns, List.map_cons, List.filter_cons]
      have h1 : upperAscii ' ' = ' ' := by decide
      rw [h1]
      simp only [show (!((' ' : Char) = ' ' || (' ' : Char) = ',')) = false by decide,
        show isADci ' ' = false by decide]
      simpa [cleanAns] using ih ht2

/-- C5 as amended.  On a line of the shape `Correct Answer:` (any casing,
one or more whitespace characters inside, optional spaces after the colon)
followed by letters A-D separated by commas and spaces, the extractor of
`parser_working.py` captures all of the letters (separators stripped,
upper-cased after cleaning), while the extractor of `final_parser.py`
captures only the first letter; in both parsers the per-line scan stops
at that line, so the lines after it are never classified as stem, option
start or option continuation (the scan result does not depend on them). -/
theorem official_answer_line_amended
    (cv w1 av sp t0 u : List Char) (c0 : Char)
    (hcv : cv.map lowerAscii = "correct".data.map lowerAscii)
    (hw1 : w1 ≠ []) (hw1w : ∀ c ∈ w1, isWsC c = true)
    (hav : av.map lowerAscii = "answer:".data.map lowerAscii)
    (hsp : ∀ c ∈ sp, c = ' ')
    (hc0 : isADci c0 = true)
    (ht0 : ∀ c ∈ t0, isADci c = true ∨ c = ',' ∨ c = ' ')
    (hu : ∀ c, u.head? = some c → isClassWch c = false) :
    matchCorrAnsW (cv ++ w1 ++ av ++ sp ++ c0 :: t0 ++ u) = some (c0 :: t0) ∧
    cleanAns (c0 :: t0) = ((c0 :: t0).filter isADci).map upperAscii ∧
    matchCorrAnsF (cv ++ w1 ++ av ++ sp ++ c0 :: t0 ++ u) = some c0 ∧
    (∀ (full : Bool) (st : ScanStateW) (rest : List (List Char)),
      stripChars (cv ++ w1 ++ av ++ sp ++ c0 :: t0 ++ u)
          = cv ++ w1 ++ av ++ sp ++ c0 :: t0 ++ u →
      scanW full ((cv ++ w1 ++ av ++ sp ++ c0 :: t0 ++ u) :: rest) st =
        { st with
          imc := st.imc || mcSearch (cv ++ w1 ++ av ++ sp ++ c0 :: t0 ++ u) || full
          corr := some (cleanAns (c0 :: t0)) }) ∧
    (∀ (st : ScanStateF) (rest : List (List Char)),
      stripChars (cv ++ w1 ++ av ++ sp ++ c0 :: t0 ++ u)
          = cv ++ w1 ++ av ++ sp ++ c0 :: t0 ++ u →
      scanF ((cv ++ w1 ++ av ++ sp ++ c0 :: t0 ++ u) :: rest) st =
        { st with corr := some [upperAscii c0] }) := by
  obtain ⟨a0, av2, rfl⟩ : ∃ a0 av2, av = a0 :: av2 := by
    cases av with
    | nil => simp at hav
    | cons x xs => exact ⟨x, xs, rfl⟩
  have ha0 : lowerAscii a0 = 'a' := by
    rw [show "answer:".data.map lowerAscii = 'a' :: "nswer:".data.map lowerAscii from rfl,
      List.map_cons] at hav
    exact (List.cons.injEq _ _ _ _ ▸ hav).1
  have hckind : ∀ c ∈ c0 :: t0, isClassWch c = true := by
    intro c hc
    rcases List.mem_cons.mp hc with rfl | hc
    · simp [isClassWch, isClassNWch, hc0]
    · rcases ht0 c hc with h | h | h
      · simp [isClassWch, isClassNWch, h]
      · simp [isClassWch, isClassNWch, h]
      · simp [isClassWch, h, isWsC]
  have hskip2 : skipPrefixCI "answer:".data
      (a0 :: (av2 ++ (sp ++ (c0 :: (t0 ++ u))))) = some (sp ++ (c0 :: (t0 ++ u))) := by
    have h2 := skipPrefixCI_ci_append "answer:".data (a0 :: av2)
      (sp ++ (c0 :: (t0 ++ u))) hav
    simpa [List.cons_append, List.append_assoc] using h2
  have hdropsp : (sp ++ (c0 :: (t0 ++ u))).dropWhile isWsC = c0 :: (t0 ++ u) := by
    refine dropWhile_all_append _ _ _ (fun c hc => by rw [hsp c hc]; decide) ?_
    intro c hcn
    simp only [List.head?_cons, Option.some.injEq] at hcn
    subst hcn
    exact ws_false_of_ADci c0 hc0
  have hafter : afterCorrectAnswer (cv ++ w1 ++ (a0 :: av2) ++ sp ++ c0 :: t0 ++ u)
      = some (sp ++ (c0 :: (t0 ++ u))) := by
    obtain ⟨wc, w1t, rfl⟩ : ∃ wc w1t, w1 = wc :: w1t := by
      cases w1 with
      | nil => exact absurd rfl hw1
      | cons x xs => exact ⟨x, xs, rfl⟩
    have hskip1 : skipPrefixCI "correct".data
        (cv ++ (wc :: (w1t ++ (a0 :: (av2 ++ (sp ++ (c0 :: (t0 ++ u))))))))
          = some (wc :: (w1t ++ (a0 :: (av2 ++ (sp ++ (c0 :: (t0 ++ u))))))) := by
      have h1 := skipPrefixCI_ci_append "correct".data cv
        (wc :: (w1t ++ (a0 :: (av2 ++ (sp ++ (c0 :: (t0 ++ u))))))) hcv
      simpa [List.cons_append, List.append_assoc] using h1
    have hdrop1 : ((wc :: w1t) ++ (a0 :: (av2 ++ (sp ++ (c0 :: (t0 ++ u)))))).dropWhile isWsC
        = a0 :: (av2 ++ (sp ++ (c0 :: (t0 ++ u)))) := by
      refine dropWhile_all_append _ _ _ hw1w ?_
      intro c hcn
      simp only [List.head?_cons, Option.some.injEq] at hcn
      subst hcn
      exact not_ws_of_lower a0 'a' ha0 (by decide)
    simp only [List.cons_append, List.append_assoc] at hdrop1
    simp only [afterCorrectAnswer, List.cons_append, List.append_assoc, hskip1, hdrop1,
      hskip2, hw1w wc (by simp), if_true]
  have htake : ((c0 :: t0) ++ u).takeWhile isClassWch = c0 :: t0 :=
    takeWhile_all_append _ _ _ hckind hu
  have hcapW : capClassW (sp ++ (c0 :: (t0 ++ u))) = some (c0 :: t0) := by
    simp only [capClassW, hdropsp]
    rw [if_pos (show isClassNWch c0 = true by simp [isClassNWch, hc0])]
    rw [show c0 :: (t0 ++ u) = (c0 :: t0) ++ u from rfl, htake]
  have hcapF : capClassF (sp ++ (c0 :: (t0 ++ u))) = some c0 := by
    simp only [capClassF, hdropsp]
    rw [if_pos hc0]
  have hW : matchCorrAnsW (cv ++ w1 ++ (a0 :: av2) ++ sp ++ c0 :: t0 ++ u)
      = some (c0 :: t0) := by
    simp only [matchCorrAnsW, hafter]
    exact hcapW
  have hF : matchCorrAnsF (cv ++ w1 ++ (a0 :: av2) ++ sp ++ c0 :: t0 ++ u)
      = some c0 := by
    simp only [matchCorrAnsF, hafter]
    exact hcapF
  have hne : cv ++ w1 ++ (a0 :: av2) ++ sp ++ c0 :: t0 ++ u ≠ [] := by
    cases cv with
    | nil => simp at hcv
    | cons x xs => simp
  refine ⟨hW, cleanAns_class _ (by
    intro c hc
    rcases List.mem_cons.mp hc with rfl | hc
    · exact Or.inl hc0
    · exact ht0 c hc), hF, ?_, ?_⟩
  · intro full st rest hstrip
    simp only [scanW, hstrip, if_neg hne, hW]
  · intro st rest hstrip
    simp only [scanF, hstrip, if_neg hne, hF]

/-- Witness for the amended C5 on the line `Correct Answer: A, B`: the
working parser captures both letters (cleaned to `AB`), the final parser
only `A`, and both scans halt with the capture stored. -/
theorem official_answer_line_amended_witness :
    matchCorrAnsW "Correct Answer: A, B".data = some ('A' :: ", B".data) ∧
    cleanAns ('A' :: ", B".data) = (('A' :: ", B".data).filter isADci).map upperAscii ∧
    cleanAns ('A' :: ", B".data) = "AB".data ∧
    matchCorrAnsF "Correct Answer: A, B".data = some 'A' ∧
    (scanW false ["Correct Answer: A, B".data] initScanW).corr
      = some (cleanAns ('A' :: ", B".data)) ∧
    (scanF ["Correct Answer: A, B".data] initScanF).corr = some ['A'] := by
  have h := official_answer_line_amended "Correct".data [' '] "Answer:".data [' ']
    ", B".data [] 'A' (by decide) (by decide) (by decide) (by decide) (by decide)
    (by decide) (by decide) (fun c hc => by simp at hc)
  rw [show "Correct".data ++ [' '] ++ "Answer:".data ++ [' '] ++ 'A' :: ", B".data ++ []
      = "Correct Answer: A, B".data from by decide] at h
  refine ⟨h.1, h.2.1, by decide, h.2.2.1, ?_, ?_⟩
  · rw [h.2.2.2.1 false initScanW [] (by decide)]
  · rw [h.2.2.2.2 initScanF [] (by decide)]
    decide

/-! ## C7: the marker shape -/

/-- Counterexample to C7 as stated: `Question#1Topic1`, with zero
whitespace between all tokens, is recognised as a marker (the regex uses
zero-or-more whitespace), and the segmenter finds it. -/
theorem marker_whitespace_counterexample :
    (markerRest "Question#1Topic1".data).isSome = true ∧
    findMarkers "Question#1Topic1".data = [0] :=
  ⟨by decide, by decide⟩

/-- The shape of a marker match: the word for question (any casing), an
optional whitespace run, a number sign, a digit run, an optional
whitespace run, the word for topic (any casing), an optional whitespace
run, and a digit run, followed by anything. -/
def MarkerShape (cs : List Char) : Prop :=
  ∃ q w1 d1 w2 t w3 d2 rest,
    cs = q ++ (w1 ++ ('#' :: (d1 ++ (w2 ++ (t ++ (w3 ++ (d2 ++ rest)))))))
    ∧ q.map lowerAscii = "question".data.map lowerAscii
    ∧ t.map lowerAscii = "topic".data.map lowerAscii
    ∧ (∀ c ∈ w1, isWsC c = true) ∧ (∀ c ∈ w2, isWsC c = true)
    ∧ (∀ c ∈ w3, isWsC c = true)
    ∧ d1 ≠ [] ∧ (∀ c ∈ d1, isDigitC c = true)
    ∧ d2 ≠ [] ∧ (∀ c ∈ d2, isDigitC c = true)

theorem skipPrefixCI_inv (ps cs r : List Char) (h : skipPrefixCI ps cs = some r) :
    ∃ q, cs = q ++ r ∧ q.map lowerAscii = ps.map lowerAscii := by
  induction ps generalizing cs with
  | nil =>
    refine ⟨[], ?_, by simp⟩
    simpa [skipPrefixCI] using h
  | cons p ps2 ih =>
    cases cs with
    | nil => simp [skipPrefixCI] at h
    | cons c cs2 =>
      simp only [skipPrefixCI] at h
      by_cases hcp : lowerAscii c = lowerAscii p
      · rw [if_pos hcp] at h
        obtain ⟨q2, hq2, hm⟩ := ih cs2 h
        exact ⟨c :: q2, by simp [hq2], by simp [List.map_cons, hm, hcp]⟩
      · rw [if_neg hcp] at h
        exact absurd h (by simp)

theorem mem_takeWhile_pred (p : Char → Bool) (l : List Char) :
    ∀ c ∈ l.takeWhile p, p c = true := by
  induction l with
  | nil => simp
  | cons a l2 ih =>
    intro c hc
    rw [List.takeWhile_cons] at hc
    by_cases ha : p a = true
    · rw [if_pos ha] at hc
      rcases List.mem_cons.mp hc with rfl | hc
      · exact ha
      · exact ih c hc
    · rw [if_neg ha] at hc
      simp at hc

theorem digits1_inv (cs r : List Char) (h : digits1 cs = some r) :
    ∃ d, cs = d ++ r ∧ d ≠ [] ∧ ∀ c ∈ d, isDigitC c = true := by
  cases cs with
  | nil => simp [digits1] at h
  | cons c cs2 =>
    simp only [digits1] at h
    split at h
    · have hr : (c :: cs2).dropWhile isDigitC = r := by simpa using h
      refine ⟨(c :: cs2).takeWhile isDigitC, ?_, ?_, mem_takeWhile_pred _ _⟩
      · rw [← hr, List.takeWhile_append_dropWhile]
      · rw [List.takeWhile_cons, if_pos (by assumption)]
        simp
    · exact absurd h (by simp)

theorem ws_false_of_digit (c : Char) (h : isDigitC c = true) : isWsC c = false := by
  simp only [isDigitC, Bool.or_eq_true, decide_eq_true_eq] at h
  rcases h with ((((((((rfl | rfl) | rfl) | rfl) | rfl) | rfl) | rfl) | rfl) | rfl) | rfl
    <;> decide

theorem digit_false_of_ws (c : Char) (h : isWsC c = true) : isDigitC c = false := by
  simp only [isWsC, Bool.or_eq_true, decide_eq_true_eq] at h
  rcases h with ((((rfl | rfl) | rfl) | rfl) | rfl) | rfl <;> decide

theorem lower_fix_of_digit (c : Char) (h : isDigitC c = true) : lowerAscii c = c := by
  simp only [isDigitC, Bool.or_eq_true, decide_eq_true_eq] at h
  rcases h with ((((((((rfl | rfl) | rfl) | rfl) | rfl) | rfl) | rfl) | rfl) | rfl) | rfl
    <;> decide

theorem not_digit_of_lower (c d : Char) (h : lowerAscii c = d) (hd : isDigitC d = false) :
    isDigitC c = false := by
  cases h2 : isDigitC c with
  | false => rfl
  | true =>
    rw [lower_fix_of_digit c h2] at h
    subst h
    simp [h2] at hd

/-- C7 as amended.  A position is recognised as a question-boundary marker
exactly when the text there consists of the literal word for question, a
number sign, an integer, the literal word for topic, and an integer,
case-insensitively, with zero or more whitespace characters between the
word tokens and the number sign or integers (the regex quantifier is
zero-or-more, so zero whitespace between tokens still yields a marker). -/
theorem marker_shape_amended (cs : List Char) :
    (markerRest cs).isSome = true ↔ MarkerShape cs := by
  constructor
  · intro h
    cases h1 : skipPrefixCI "question".data cs with
    | none => simp [markerRest, h1] at h
    | some r1 =>
      cases h2 : r1.dropWhile isWsC with
      | nil => simp [markerRest, h1, h2] at h
      | cons c r2 =>
        by_cases hc : c = '#'
        case neg => simp [markerRest, h1, h2, hc] at h
        subst hc
        cases h3 : digits1 r2 with
        | none => simp [markerRest, h1, h2, h3] at h
        | some r3 =>
          cases h4 : skipPrefixCI "topic".data (r3.dropWhile isWsC) with
          | none => simp [markerRest, h1, h2, h3, h4] at h
          | some r4 =>
            cases h5 : digits1 (r4.dropWhile isWsC) with
            | none => simp [markerRest, h1, h2, h3, h4, h5] at h
            | some r5 =>
              obtain ⟨q, hq, hqm⟩ := skipPrefixCI_inv _ _ _ h1
              obtain ⟨d1, hd1, hd1n, hd1d⟩ := digits1_inv _ _ h3
              obtain ⟨t, ht, htm⟩ := skipPrefixCI_inv _ _ _ h4
              obtain ⟨d2, hd2, hd2n, hd2d⟩ := digits1_inv _ _ h5
              have e1 : r1 = r1.takeWhile isWsC ++ ('#' :: r2) := by
                conv_lhs => rw [← List.takeWhile_append_dropWhile (p := isWsC) (l := r1)]
                rw [h2]
              have e2 : r3 = r3.takeWhile isWsC ++ (t ++ r4) := by
                conv_lhs => rw [← List.takeWhile_append_dropWhile (p := isWsC) (l := r3)]
                rw [ht]
              have e3 : r4 = r4.takeWhile isWsC ++ (d2 ++ r5) := by
                conv_lhs => rw [← List.takeWhile_append_dropWhile (p := isWsC) (l := r4)]
                rw [hd2]
              refine ⟨q, r1.takeWhile isWsC, d1, r3.takeWhile isWsC, t,
                r4.takeWhile isWsC, d2, r5, ?_, hqm, htm,
                mem_takeWhile_pred _ _, mem_takeWhile_pred _ _, mem_takeWhile_pred _ _,
                hd1n, hd1d, hd2n, hd2d⟩
              have e2b : r3 = r3.takeWhile isWsC
                  ++ (t ++ (r4.takeWhile isWsC ++ (d2 ++ r5))) :=
                e2.trans (congrArg (fun z => r3.takeWhile isWsC ++ (t ++ z)) e3)
              have hd1b : r2 = d1 ++ (r3.takeWhile isWsC
                  ++ (t ++ (r4.takeWhile isWsC ++ (d2 ++ r5)))) :=
                hd1.trans (congrArg (fun z => d1 ++ z) e2b)
              have e1b : r1 = r1.takeWhile isWsC ++ ('#' :: (d1 ++ (r3.takeWhile isWsC
                  ++ (t ++ (r4.takeWhile isWsC ++ (d2 ++ r5)))))) :=
                e1.trans (congrArg
                  (fun z => r1.takeWhile isWsC ++ ('#' :: z)) hd1b)
              exact hq.trans (congrArg (fun z => q ++ z) e1b)
  · rintro ⟨q, w1, d1, w2, t, w3, d2, rest, rfl, hqm, htm, hw1, hw2, hw3,
      hd1n, hd1d, hd2n, hd2d⟩
    obtain ⟨e0, d1t, rfl⟩ : ∃ e0 d1t, d1 = e0 :: d1t := by
      cases d1 with
      | nil => exact absurd rfl hd1n
      | cons x xs => exact ⟨x, xs, rfl⟩
    obtain ⟨f0, d2t, rfl⟩ : ∃ f0 d2t, d2 = f0 :: d2t := by
      cases d2 with
      | nil => exact absurd rfl hd2n
      | cons x xs => exact ⟨x, xs, rfl⟩
    obtain ⟨t0, tt, rfl⟩ : ∃ t0 tt, t = t0 :: tt := by
      cases t with
      | nil => simp at htm
      | cons x xs => exact ⟨x, xs, rfl⟩
    have ht0 : lowerAscii t0 = 't' := by
      rw [show "topic".data.map lowerAscii = 't' :: "opic".data.map lowerAscii from rfl,
        List.map_cons] at htm
      exact (List.cons.injEq _ _ _ _ ▸ htm).1
    have s1 : skipPrefixCI "question".data
        (q ++ (w1 ++ ('#' :: ((e0 :: d1t) ++ (w2 ++ ((t0 :: tt)
          ++ (w3 ++ ((f0 :: d2t) ++ rest))))))))
        = some (w1 ++ ('#' :: ((e0 :: d1t) ++ (w2 ++ ((t0 :: tt)
          ++ (w3 ++ ((f0 :: d2t) ++ rest))))))) :=
      skipPrefixCI_ci_append _ _ _ hqm
    have s2 : (w1 ++ ('#' :: ((e0 :: d1t) ++ (w2 ++ ((t0 :: tt)
          ++ (w3 ++ ((f0 :: d2t) ++ rest))))))).dropWhile isWsC
        = '#' :: ((e0 :: d1t) ++ (w2 ++ ((t0 :: tt)
          ++ (w3 ++ ((f0 :: d2t) ++ rest))))) := by
      refine dropWhile_all_append _ _ _ hw1 ?_
      intro c hcn
      simp only [List.head?_cons, Option.some.injEq] at hcn
      subst hcn
      decide
    have s3 : digits1 ((e0 :: d1t) ++ (w2 ++ ((t0 :: tt)
          ++ (w3 ++ ((f0 :: d2t) ++ rest)))))
        = some (w2 ++ ((t0 :: tt) ++ (w3 ++ ((f0 :: d2t) ++ rest)))) := by
      have hd : ((e0 :: d1t) ++ (w2 ++ ((t0 :: tt)
            ++ (w3 ++ ((f0 :: d2t) ++ rest))))).dropWhile isDigitC
          = w2 ++ ((t0 :: tt) ++ (w3 ++ ((f0 :: d2t) ++ rest))) := by
        refine dropWhile_all_append _ _ _ hd1d ?_
        intro c hcn
        cases w2 with
        | nil =>
          simp only [List.nil_append, List.cons_append, List.head?_cons,
            Option.some.injEq] at hcn
          subst hcn
          exact not_digit_of_lower t0 't' ht0 (by decide)
        | cons wc w2t =>
          simp only [List.cons_append, List.head?_cons, Option.some.injEq] at hcn
          subst hcn
          exact digit_false_of_ws _ (hw2 _ (by simp))
      simp only [List.cons_append] at hd
      simp only [List.cons_append, digits1, hd1d e0 (by simp), if_true, hd]
    have s4 : (w2 ++ ((t0 :: tt) ++ (w3 ++ ((f0 :: d2t) ++ rest)))).dropWhile isWsC
        = (t0 :: tt) ++ (w3 ++ ((f0 :: d2t) ++ rest)) := by
      refine dropWhile_all_append _ _ _ hw2 ?_
      intro c hcn
      simp only [List.cons_append, List.head?_cons, Option.some.injEq] at hcn
      subst hcn
      exact not_ws_of_lower t0 't' ht0 (by decide)
    have s5 : skipPrefixCI "topic".data
        ((t0 :: tt) ++ (w3 ++ ((f0 :: d2t) ++ rest)))
        = some (w3 ++ ((f0 :: d2t) ++ rest)) :=
      skipPrefixCI_ci_append _ _ _ htm
    have s6 : (w3 ++ ((f0 :: d2t) ++ rest)).dropWhile isWsC
        = (f0 :: d2t) ++ rest := by
      refine dropWhile_all_append _ _ _ hw3 ?_
      intro c hcn
      simp only [List.cons_append, List.head?_cons, Option.some.injEq] at hcn
      subst hcn
      exact ws_false_of_digit f0 (hd2d f0 (by simp))
    simp only [List.cons_append] at s1 s2 s3 s4 s5 s6
    simp only [markerRest, List.cons_append, s1, s2, if_pos rfl, s3, s4, s5, s6]
    simp [digits1, hd2d f0 (by simp)]

/-- Witness for the amended C7 at a concrete marker with single spaces. -/
theorem marker_shape_amended_witness :
    MarkerShape "Question #1 Topic 2".data :=
  (marker_shape_amended "Question #1 Topic 2".data).mp (by decide)

/-! ## C1: segmentation -/

theorem scanPos_empty {α : Type} (m : List Char → Option (α × List Char))
    (hm : m [] = none) (fuel i : Nat) : scanPos m fuel i [] = [] := by
  cases fuel with
  | zero => rfl
  | succ f => simp [scanPos, hm]

theorem scanPos_mem {α : Type} (m : List Char → Option (α × List Char))
    (hm : m [] = none) :
    ∀ (fuel i : Nat) (cs : List Char) (j : Nat) (a : α),
      (j, a) ∈ scanPos m fuel i cs → i ≤ j ∧ j < i + cs.length := by
  intro fuel
  induction fuel with
  | zero =>
    intro i cs j a h
    simp [scanPos] at h
  | succ f ih =>
    intro i cs j a h
    cases hmc : m cs with
    | some pr =>
      have hcs : cs ≠ [] := by
        intro he
        rw [he, hm] at hmc
        exact absurd hmc (by simp)
      have hlen : 1 ≤ cs.length := by
        cases cs with
        | nil => exact absurd rfl hcs
        | cons x xs => simp
      obtain ⟨a0, rest⟩ := pr
      simp only [scanPos, hmc] at h
      rcases List.mem_cons.mp h with he | hmem
      · have : j = i := by
          have := congrArg Prod.fst he
          simpa using this
        subst this
        omega
      · have hb := ih _ _ _ _ hmem
        rw [List.length_drop] at hb
        have hk : max (cs.length - rest.length) 1 ≤ cs.length := by omega
        omega
    | none =>
      cases cs with
      | nil =>
        rw [scanPos_empty m hm] at h
        simp at h
      | cons c rest2 =>
        simp only [scanPos, hmc] at h
        have hb := ih _ _ _ _ h
        simp only [List.length_cons] at *
        omega

theorem scanPos_chain {α : Type} (m : List Char → Option (α × List Char))
    (hm : m [] = none) :
    ∀ (fuel i : Nat) (cs : List Char),
      List.Chain' (fun p q : Nat × α => p.1 < q.1) (scanPos m fuel i cs) := by
  intro fuel
  induction fuel with
  | zero =>
    intro i cs
    simp [scanPos]
  | succ f ih =>
    intro i cs
    cases hmc : m cs with
    | some pr =>
      obtain ⟨a0, rest⟩ := pr
      simp only [scanPos, hmc]
      rw [List.chain'_cons']
      refine ⟨?_, ih _ _⟩
      intro b hb
      have hmem := List.mem_of_mem_head? hb
      obtain ⟨j, a⟩ := b
      have := (scanPos_mem m hm _ _ _ _ _ hmem).1
      simp only
      omega
    | none =>
      cases cs with
      | nil => rw [scanPos_empty m hm]; simp
      | cons c rest2 =>
        simp only [scanPos, hmc]
        exact ih _ _

theorem toSpans_map_fst (l : List Nat) (n : Nat) :
    (toSpans l n).map Prod.fst = l := by
  induction l with
  | nil => rfl
  | cons s l2 ih =>
    cases l2 with
    | nil => rfl
    | cons s2 l3 =>
      simpa [toSpans] using ih

theorem toSpans_bounds (l : List Nat) (n : Nat)
    (hch : List.Chain' (· < ·) l) (hlt : ∀ x ∈ l, x < n) :
    ∀ p ∈ toSpans l n, p.1 < p.2 ∧ p.2 ≤ n := by
  induction l with
  | nil => simp [toSpans]
  | cons s l2 ih =>
    cases l2 with
    | nil =>
      intro p hp
      simp only [toSpans, List.mem_singleton] at hp
      subst hp
      exact ⟨hlt s (by simp), le_refl n⟩
    | cons s2 l3 =>
      intro p hp
      rw [List.chain'_cons] at hch
      rcases List.mem_cons.mp hp with rfl | hp
      · refine ⟨hch.1, ?_⟩
        have := hlt s2 (by simp)
        omega
      · exact ih hch.2 (fun x hx => hlt x (by simp [hx])) p hp

theorem toSpans_contig (l : List Nat) (n : Nat) :
    List.Chain' (fun p q : Nat × Nat => p.2 = q.1) (toSpans l n) := by
  induction l with
  | nil => simp [toSpans]
  | cons s l2 ih =>
    cases l2 with
    | nil => simp [toSpans]
    | cons s2 l3 =>
      simp only [toSpans]
      rw [List.chain'_cons']
      refine ⟨?_, ih⟩
      intro b hb
      cases l3 with
      | nil => simp [toSpans] at hb; rw [← hb]
      | cons s3 l4 => simp [toSpans] at hb; rw [← hb]

theorem toSpans_cover (l : List Nat) (n : Nat)
    (hch : List.Chain' (· < ·) l) (hlt : ∀ x ∈ l, x < n) :
    ∀ k, (∃ p ∈ toSpans l n, p.1 ≤ k ∧ k < p.2)
      ↔ ∃ s0, l.head? = some s0 ∧ s0 ≤ k ∧ k < n := by
  induction l with
  | nil => simp [toSpans]
  | cons s l2 ih =>
    cases l2 with
    | nil =>
      intro k
      simp [toSpans]
    | cons s2 l3 =>
      intro k
      rw [List.chain'_cons] at hch
      have hs2 : s2 < n := hlt s2 (by simp)
      have ihk := ih hch.2 (fun x hx => hlt x (by simp [hx])) k
      simp only [toSpans, List.mem_cons, List.head?_cons, Option.some.injEq] at ihk ⊢
      constructor
      · rintro ⟨p, hp | hp, hk1, hk2⟩
        · subst hp
          exact ⟨s, rfl, hk1, by omega⟩
        · obtain ⟨s0, hs0, hs0k, hkn⟩ := ihk.mp ⟨p, hp, hk1, hk2⟩
          exact ⟨s, rfl, by omega, hkn⟩
      · rintro ⟨s0, rfl, hsk, hkn⟩
        by_cases hk2 : k < s2
        · exact ⟨(s, s2), Or.inl rfl, hsk, hk2⟩
        · obtain ⟨p, hp, h1, h2⟩ := ihk.mpr ⟨s2, rfl, by omega, hkn⟩
          exact ⟨p, Or.inr hp, h1, h2⟩

/-- C1.  The segmenter yields one block per marker occurrence of the
non-overlapping left-to-right scan: block starts are exactly the marker
start offsets in order, every span is non-empty and within the text,
consecutive spans are contiguous (hence non-overlapping), the union of
the spans is the interval from the first marker start to the end of the
text, and a text with zero markers yields an empty block sequence. -/
theorem segmentation_blocks_cover (cs : List Char) :
    (segmentSpans cs).map Prod.fst = findMarkers cs ∧
    (questionBlocks cs).length = (findMarkers cs).length ∧
    (∀ p ∈ segmentSpans cs, p.1 < p.2 ∧ p.2 ≤ cs.length) ∧
    List.Chain' (fun p q : Nat × Nat => p.2 = q.1) (segmentSpans cs) ∧
    (∀ k, (∃ p ∈ segmentSpans cs, p.1 ≤ k ∧ k < p.2)
      ↔ ∃ s0, (findMarkers cs).head? = some s0 ∧ s0 ≤ k ∧ k < cs.length) ∧
    (findMarkers cs = [] → questionBlocks cs = []) := by
  have hm : markerM [] = none := by decide
  have hchain : List.Chain' (· < ·) (findMarkers cs) := by
    rw [findMarkers, List.chain'_map]
    exact scanPos_chain markerM hm _ _ _
  have hlt : ∀ x ∈ findMarkers cs, x < cs.length := by
    intro x hx
    rw [findMarkers, List.mem_map] at hx
    obtain ⟨⟨j, a⟩, hmem, rfl⟩ := hx
    simpa using (scanPos_mem markerM hm _ _ _ _ _ hmem).2
  refine ⟨toSpans_map_fst _ _, ?_, toSpans_bounds _ _ hchain hlt,
    toSpans_contig _ _, toSpans_cover _ _ hchain hlt, ?_⟩
  · have hl := congrArg List.length (toSpans_map_fst (findMarkers cs) cs.length)
    simpa [questionBlocks, segmentSpans] using hl
  · intro he
    simp [questionBlocks, segmentSpans, he, toSpans]

/-- A text with two markers, at offsets 3 and 26. -/
def exSeg : List Char := "xx Question #1 Topic 1 yy Question #2 Topic 1 zz".data

/-- Witness for C1: no markers gives no blocks, and offset 30 of `exSeg`
lies inside one of the spans, in accordance with the covering property. -/
theorem segmentation_blocks_cover_witness :
    questionBlocks "no markers here".data = [] ∧
    (∃ p ∈ segmentSpans exSeg, p.1 ≤ 30 ∧ 30 < p.2) :=
  ⟨(segmentation_blocks_cover "no markers here".data).2.2.2.2.2 (by decide),
   ((segmentation_blocks_cover exSeg).2.2.2.2.1 30).mpr ⟨3, by decide, by decide, by decide⟩⟩

/-! ## C8: multiple-choice wording anywhere in the block -/

theorem listSuffixes_decomp (s u : List Char) (h : u ∈ listSuffixes s) :
    ∃ a, s = a ++ u := by
  induction s with
  | nil =>
    simp only [listSuffixes, List.mem_singleton] at h
    exact ⟨[], by simp [h]⟩
  | cons c rest ih =>
    simp only [listSuffixes, List.mem_cons] at h
    rcases h with rfl | h
    · exact ⟨[], rfl⟩
    · obtain ⟨a, ha⟩ := ih h
      exact ⟨c :: a, by simp [ha]⟩

theorem mem_listSuffixes_of_decomp (s u : List Char) (h : ∃ a, s = a ++ u) :
    u ∈ listSuffixes s := by
  obtain ⟨a, rfl⟩ := h
  induction a with
  | nil =>
    cases u with
    | nil => simp [listSuffixes]
    | cons c r => simp [listSuffixes]
  | cons c a2 ih =>
    simp only [List.cons_append, listSuffixes, List.mem_cons]
    exact Or.inr ih

theorem startsWithCI_length (pat u : List Char) (h : startsWithCI pat u = true) :
    pat.length ≤ u.length := by
  induction pat generalizing u with
  | nil => simp
  | cons p ps ih =>
    cases u with
    | nil => simp [startsWithCI] at h
    | cons c cs =>
      simp only [startsWithCI, Bool.and_eq_true] at h
      simpa using ih cs h.2

theorem startsWithCI_append (pat u b : List Char) (h : pat.length ≤ u.length) :
    startsWithCI pat (u ++ b) = startsWithCI pat u := by
  induction pat generalizing u with
  | nil => simp [startsWithCI]
  | cons p ps ih =>
    cases u with
    | nil => simp at h
    | cons c cs =>
      simp only [List.cons_append, startsWithCI, List.append_eq]
      rw [ih cs (by simpa using h)]

theorem searchNoNl_length (pat u r : List Char) (h : searchNoNl pat u = some r) :
    pat.length ≤ u.length := by
  induction u with
  | nil => simp [searchNoNl] at h
  | cons c rest ih =>
    simp only [searchNoNl] at h
    by_cases h1 : startsWithCI pat (c :: rest) = true
    · exact startsWithCI_length _ _ h1
    · rw [if_neg h1] at h
      by_cases h2 : c = '\n'
      · rw [if_pos h2] at h
        exact absurd h (by simp)
      · rw [if_neg h2] at h
        have := ih h
        simp only [List.length_cons]
        omega

theorem searchNoNl_append (pat u b r : List Char) (h : searchNoNl pat u = some r) :
    searchNoNl pat (u ++ b) = some (r ++ b) := by
  induction u with
  | nil => simp [searchNoNl] at h
  | cons c rest ih =>
    simp only [searchNoNl] at h
    by_cases h1 : startsWithCI pat (c :: rest) = true
    · rw [if_pos h1] at h
      have hlen := startsWithCI_length _ _ h1
      simp only [List.cons_append, searchNoNl, List.append_eq]
      rw [show startsWithCI pat (c :: (rest ++ b)) = true from by
        have := startsWithCI_append pat (c :: rest) b hlen
        simpa using this.trans h1]
      simp only [if_true]
      rw [← Option.some.injEq] at h ⊢
      have hd : ((c :: rest) ++ b).drop pat.length = (c :: rest).drop pat.length ++ b :=
        List.drop_append_of_le_length hlen
      simp only [List.cons_append] at hd
      rw [hd]
      simp only [Option.some.injEq] at h ⊢
      rw [h]
    · rw [if_neg h1] at h
      by_cases h2 : c = '\n'
      · rw [if_pos h2] at h
        exact absurd h (by simp)
      · rw [if_neg h2] at h
        have hlen := searchNoNl_length _ _ _ h
        have h1b : startsWithCI pat (c :: (rest ++ b)) = false := by
          have := startsWithCI_append pat (c :: rest) b (by simp; omega)
          simp only [List.cons_append] at this
          rw [this]
          simpa using h1
        simp only [List.cons_append, searchNoNl, List.append_eq, h1b]
        rw [if_neg (by simp), if_neg h2]
        exact ih h

theorem findCloseNoNl_append (z b : List Char) (h : findCloseNoNl z = true) :
    findCloseNoNl (z ++ b) = true := by
  induction z with
  | nil => simp [findCloseNoNl] at h
  | cons c rest ih =>
    simp only [findCloseNoNl] at h ⊢
    by_cases h1 : c = ')'
    · rw [if_pos h1]
    · rw [if_neg h1] at h ⊢
      by_cases h2 : c = '\n'
      · rw [if_pos h2] at h
        exact absurd h (by simp)
      · rw [if_neg h2] at h ⊢
        exact ih h

theorem mcFrom_append (r b : List Char) (h : mcFrom r = true) :
    mcFrom (r ++ b) = true := by
  simp only [mcFrom] at h ⊢
  cases h1 : searchNoNl "choose".data r with
  | none => rw [h1] at h; simp at h
  | some r2 =>
    rw [h1] at h
    rw [searchNoNl_append _ _ b _ h1]
    rw [List.any_eq_true] at h ⊢
    obtain ⟨kw, hkw, hk⟩ := h
    refine ⟨kw, hkw, ?_⟩
    cases h2 : searchNoNl kw r2 with
    | none => rw [h2] at hk; simp at hk
    | some r3 =>
      rw [h2] at hk
      rw [searchNoNl_append _ _ b _ h2]
      exact findCloseNoNl_append _ _ hk

theorem mcSearch_infix (t s : List Char) (h : mcSearch t = true)
    (hinf : ∃ a b, s = a ++ t ++ b) : mcSearch s = true := by
  obtain ⟨a, b, rfl⟩ := hinf
  rw [mcSearch, List.any_eq_true] at h
  obtain ⟨suf, hsuf, hp⟩ := h
  cases suf with
  | nil => simp at hp
  | cons c r =>
    simp only [Bool.and_eq_true, decide_eq_true_eq] at hp
    obtain ⟨rfl, hmf⟩ := hp
    obtain ⟨a2, rfl⟩ := listSuffixes_decomp _ _ hsuf
    rw [mcSearch, List.any_eq_true]
    refine ⟨'(' :: (r ++ b), mem_listSuffixes_of_decomp _ _ ⟨a ++ a2, by simp⟩, ?_⟩
    simp [mcFrom_append _ _ hmf]

theorem paren_mem_of_mcSearch (s : List Char) (h : mcSearch s = true) : '(' ∈ s := by
  rw [mcSearch, List.any_eq_true] at h
  obtain ⟨suf, hsuf, hp⟩ := h
  cases suf with
  | nil => simp at hp
  | cons c r =>
    simp only [Bool.and_eq_true, decide_eq_true_eq] at hp
    obtain ⟨rfl, _⟩ := hp
    obtain ⟨a, rfl⟩ := listSuffixes_decomp _ _ hsuf
    simp

theorem mem_dropWhile_of_neg (p : Char → Bool) (l : List Char) (c : Char)
    (hc : c ∈ l) (hp : p c = false) : c ∈ l.dropWhile p := by
  induction l with
  | nil => simp at hc
  | cons a rest ih =>
    rw [List.dropWhile_cons]
    by_cases ha : p a = true
    · rw [if_pos ha]
      rcases List.mem_cons.mp hc with rfl | hc2
      · rw [ha] at hp; exact absurd hp (by simp)
      · exact ih hc2
    · rw [if_neg ha]
      exact hc

theorem mem_strip_of_not_ws (c : Char) (s : List Char) (hc : c ∈ s)
    (hw : isWsC c = false) : c ∈ stripChars s := by
  rw [stripChars, List.mem_reverse]
  apply mem_dropWhile_of_neg _ _ _ _ hw
  rw [List.mem_reverse]
  exact mem_dropWhile_of_neg _ _ _ hc hw

theorem splitNl_ne_nil (cs : List Char) : splitNl cs ≠ [] := by
  cases cs with
  | nil => simp [splitNl]
  | cons c rest =>
    simp only [splitNl]
    by_cases h : c = '\n'
    · rw [if_pos h]; simp
    · rw [if_neg h]
      cases hs : splitNl rest with
      | nil => simp
      | cons l ls => simp

theorem splitNl_head_prefix (cs : List Char) :
    ∀ l0 ls, splitNl cs = l0 :: ls → ∃ b, cs = l0 ++ b := by
  induction cs with
  | nil =>
    intro l0 ls h
    simp only [splitNl, List.cons.injEq] at h
    exact ⟨[], by simp [← h.1]⟩
  | cons c rest ih =>
    intro l0 ls h
    simp only [splitNl] at h
    by_cases hc : c = '\n'
    · rw [if_pos hc] at h
      obtain ⟨h1, _⟩ := List.cons.injEq _ _ _ _ ▸ h
      exact ⟨c :: rest, by simp [← h1]⟩
    · rw [if_neg hc] at h
      cases hs : splitNl rest with
      | nil => exact absurd hs (splitNl_ne_nil rest)
      | cons m0 ms =>
        rw [hs] at h
        obtain ⟨h1, _⟩ := List.cons.injEq _ _ _ _ ▸ h
        obtain ⟨b, hb⟩ := ih m0 ms hs
        exact ⟨b, by simp [← h1, hb]⟩

theorem splitNl_mem_parts (cs : List Char) :
    ∀ l ∈ splitNl cs, ∃ a b, cs = a ++ l ++ b := by
  induction cs with
  | nil =>
    intro l hl
    simp only [splitNl, List.mem_singleton] at hl
    exact ⟨[], [], by simp [hl]⟩
  | cons c rest ih =>
    intro l hl
    simp only [splitNl] at hl
    by_cases hc : c = '\n'
    · rw [if_pos hc] at hl
      rcases List.mem_cons.mp hl with rfl | hl2
      · exact ⟨[], c :: rest, by simp⟩
      · obtain ⟨a, b, hb⟩ := ih l hl2
        exact ⟨c :: a, b, by simp [hb]⟩
    · rw [if_neg hc] at hl
      cases hs : splitNl rest with
      | nil => exact absurd hs (splitNl_ne_nil rest)
      | cons m0 ms =>
        rw [hs] at hl
        rcases List.mem_cons.mp hl with rfl | hl2
        · obtain ⟨b, hb⟩ := splitNl_head_prefix rest m0 ms hs
          exact ⟨[], b, by simp [hb]⟩
        · obtain ⟨a, b, hb⟩ := ih l (by rw [hs]; exact List.mem_cons_of_mem m0 hl2)
          exact ⟨c :: a, b, by simp [hb]⟩

theorem mem_splitNl_of_mem (cs : List Char) (c : Char) (hc : c ∈ cs)
    (hn : c ≠ '\n') : ∃ l ∈ splitNl cs, c ∈ l := by
  induction cs with
  | nil => simp at hc
  | cons x rest ih =>
    rcases List.mem_cons.mp hc with rfl | hc2
    · simp only [splitNl, if_neg hn]
      cases hs : splitNl rest with
      | nil => exact absurd hs (splitNl_ne_nil rest)
      | cons m0 ms => exact ⟨c :: m0, by simp, by simp⟩
    · obtain ⟨l, hl, hcl⟩ := ih hc2
      simp only [splitNl]
      by_cases hx : x = '\n'
      · rw [if_pos hx]
        exact ⟨l, List.mem_cons_of_mem _ hl, hcl⟩
      · rw [if_neg hx]
        cases hs : splitNl rest with
        | nil => exact absurd hs (splitNl_ne_nil rest)
        | cons m0 ms =>
          rw [hs] at hl
          rcases List.mem_cons.mp hl with rfl | hl2
          · exact ⟨x :: l, by simp, List.mem_cons_of_mem _ hcl⟩
          · exact ⟨l, List.mem_cons_of_mem _ hl2, hcl⟩

theorem strip_decomp (s : List Char) : ∃ a b, s = a ++ stripChars s ++ b := by
  refine ⟨s.takeWhile isWsC, ((s.dropWhile isWsC).reverse.takeWhile isWsC).reverse, ?_⟩
  conv_lhs => rw [← List.takeWhile_append_dropWhile (p := isWsC) (l := s)]
  rw [stripChars, List.append_assoc]
  congr 1
  conv_lhs => rw [← List.reverse_reverse (s.dropWhile isWsC)]
  conv_lhs =>
    rw [← List.takeWhile_append_dropWhile (p := isWsC) (l := (s.dropWhile isWsC).reverse)]
  rw [List.reverse_append]

theorem scanW_imc_mono (full : Bool) (lines : List (List Char)) :
    ∀ st : ScanStateW, st.imc = true → (scanW full lines st).imc = true := by
  induction lines with
  | nil =>
    intro st h
    exact h
  | cons l rest ih =>
    intro st h
    simp only [scanW]
    by_cases hb : stripChars l = []
    · rw [if_pos hb]
      exact ih st h
    · rw [if_neg hb]
      cases hm : matchCorrAnsW (stripChars l) with
      | some g => simp [h]
      | none =>
        dsimp only
        cases ho : matchOptionStart (stripChars l) with
        | some lt =>
          dsimp only
          apply ih
          simp [h]
        | none =>
          dsimp only
          split
          · apply ih
            simp [h]
          · split
            · apply ih
              simp [h]
            · apply ih
              simp [h]

theorem scanW_imc_full (lines : List (List Char)) :
    ∀ st : ScanStateW, (∃ l ∈ lines, stripChars l ≠ []) →
      (scanW true lines st).imc = true := by
  induction lines with
  | nil =>
    rintro st ⟨l, hl, _⟩
    simp at hl
  | cons l rest ih =>
    rintro st ⟨l2, hl2, hne⟩
    simp only [scanW]
    by_cases hb : stripChars l = []
    · rw [if_pos hb]
      apply ih
      rcases List.mem_cons.mp hl2 with rfl | h2
      · exact absurd hb hne
      · exact ⟨l2, h2, hne⟩
    · rw [if_neg hb]
      cases hm : matchCorrAnsW (stripChars l) with
      | some g => simp
      | none =>
        dsimp only
        cases ho : matchOptionStart (stripChars l) with
        | some lt =>
          dsimp only
          apply scanW_imc_mono
          simp
        | none =>
          dsimp only
          split
          · apply scanW_imc_mono
            simp
          · split
            · apply scanW_imc_mono
              simp
            · apply scanW_imc_mono
              simp

/-- C8.  The multiple-choice flag is set whenever the full block text, or
any (stripped) line of the block, matches the wording
`(... choose ... two|three|2|3 ...)`, case-insensitively — so the flag can
trigger from context anywhere in the block, including inside option text
or after the official-answer line. -/
theorem multiple_choice_anywhere (cs : List Char)
    (h : mcSearch cs = true ∨ ∃ l ∈ splitNl cs, mcSearch (stripChars l) = true) :
    (parseQuestionW cs).is_multiple_choice = true := by
  have hfull : mcSearch cs = true := by
    rcases h with h | ⟨l, hl, hml⟩
    · exact h
    · obtain ⟨a1, b1, hd1⟩ := strip_decomp l
      obtain ⟨a2, b2, hd2⟩ := splitNl_mem_parts cs l hl
      refine mcSearch_infix _ cs hml ⟨a2 ++ a1, b1 ++ b2, ?_⟩
      rw [hd2]
      conv_lhs => rw [hd1]
      simp [List.append_assoc]
  have hline : ∃ l ∈ splitNl cs, stripChars l ≠ [] := by
    have hp : '(' ∈ cs := paren_mem_of_mcSearch cs hfull
    obtain ⟨l, hl, hcl⟩ := mem_splitNl_of_mem cs '(' hp (by decide)
    refine ⟨l, hl, fun he => ?_⟩
    have hmem := mem_strip_of_not_ws '(' l hcl (by decide)
    rw [he] at hmem
    simp at hmem
  have hproj : (parseQuestionW cs).is_multiple_choice
      = (scanW (mcSearch cs) (splitNl cs) initScanW).imc := rfl
  rw [hproj, hfull]
  exact scanW_imc_full (splitNl cs) initScanW hline

/-- A block whose multiple-choice wording appears only after the
official-answer line. -/
def blkLateMC : List Char :=
  ("Question #3 Topic 1\nWhat should the administrator do about it?\n"
    ++ "A. first\nB. second\nCorrect Answer: B\n"
    ++ "Great discussion (choose two of them)\n").data

/-- Witness for C8: wording after the Correct-Answer line still sets the
flag. -/
theorem multiple_choice_anywhere_witness :
    (parseQuestionW blkLateMC).is_multiple_choice = true :=
  multiple_choice_anywhere blkLateMC (Or.inl (by decide))
